import Mathlib

/- Formal model of the causal-graph core of theory_engine
   (src/converters/whyzen_graph_utils.py and src/converters/topology_validator.py).

   An EdgeMap is a Python dict mapping each node name to the ordered list of its
   direct parent names.  Python dicts are modelled as association lists that keep
   insertion order (which Python dicts guarantee); assignment to an existing key
   keeps its position, assignment to a fresh key appends at the end. -/

namespace TheoryEngine

/-- An edge map: node name ↦ ordered list of direct parent names
(the `edges` dictionaries of whyzen_graph_utils). -/
abbrev EdgeMap := List (String × List String)

/-- Dict lookup: first matching key wins (Python dicts have unique keys). -/
def alookup {β : Type} (m : List (String × β)) (k : String) : Option β :=
  (m.find? (fun p => p.1 == k)).map Prod.snd

/-- Python dict assignment `m[k] = v`: replaces in place if the key exists,
otherwise appends a fresh entry at the end. -/
def aset {β : Type} (m : List (String × β)) (k : String) (v : β) :
    List (String × β) :=
  match m with
  | [] => [(k, v)]
  | (k', v') :: rest => if k' == k then (k, v) :: rest else (k', v') :: aset rest k v

/-- The key list of a dict, in insertion order (`dict.keys()`). -/
def dictKeys {β : Type} (m : List (String × β)) : List String :=
  m.map Prod.fst

theorem alookup_nil {β : Type} (k : String) : alookup ([] : List (String × β)) k = none := rfl

theorem alookup_cons {β : Type} (k' : String) (v : β) (m : List (String × β)) (k : String) :
    alookup ((k', v) :: m) k = if k' = k then some v else alookup m k := by
  by_cases h : k' = k
  · subst h
    have hp : ((fun (p : String × β) => p.1 == k') (k', v)) = true := by simp
    simp [alookup, List.find?_cons_of_pos _ hp]
  · have hp : ¬ ((fun (p : String × β) => p.1 == k) (k', v)) = true := by simp [h]
    simp [alookup, List.find?_cons_of_neg _ hp, h]

theorem alookup_aset {β : Type} (m : List (String × β)) (k : String) (v : β) (q : String) :
    alookup (aset m k v) q = if k = q then some v else alookup m q := by
  induction m with
  | nil =>
    by_cases h : k = q <;> simp [aset, alookup_cons, alookup_nil, h]
  | cons hd tl ih =>
    obtain ⟨k', v'⟩ := hd
    by_cases hk : k' = k
    · subst hk
      simp only [aset, beq_self_eq_true, if_true]
      by_cases h : k' = q <;> simp [alookup_cons, h]
    · simp only [aset, beq_eq_false_iff_ne.mpr hk, Bool.false_eq_true, if_false,
        ne_eq, hk, not_false_eq_true, beq_iff_eq, ite_false]
      by_cases h : k' = q
      · subst h
        have : ¬ (k = k') := fun hh => hk hh.symm
        simp [alookup_cons, this, ih]
      · simp [alookup_cons, h, ih]

theorem alookup_isSome_iff_mem_keys {β : Type} (m : List (String × β)) (k : String) :
    (alookup m k).isSome = true ↔ k ∈ dictKeys m := by
  induction m with
  | nil => simp [alookup_nil, dictKeys]
  | cons hd tl ih =>
    obtain ⟨k', v'⟩ := hd
    rw [alookup_cons]
    by_cases h : k' = k
    · simp [h, dictKeys]
    · have h2 : ¬ (k = k') := fun hh => h hh.symm
      simp only [h, if_false]
      simp only [dictKeys, List.map_cons, List.mem_cons, h2, false_or]
      exact ih

theorem alookup_eq_none_of_not_mem_keys {β : Type} {m : List (String × β)} {k : String}
    (h : k ∉ dictKeys m) : alookup m k = none := by
  by_cases hs : (alookup m k).isSome = true
  · exact absurd ((alookup_isSome_iff_mem_keys m k).mp hs) h
  · rw [← Option.not_isSome_iff_eq_none]
    exact hs

/-- In a dict with unique keys, a stored entry is found by lookup. -/
theorem alookup_of_mem_nodup {β : Type} {m : List (String × β)} {k : String} {v : β}
    (hnd : (dictKeys m).Nodup) (hmem : (k, v) ∈ m) : alookup m k = some v := by
  induction m with
  | nil => simp at hmem
  | cons hd tl ih =>
    obtain ⟨k', v'⟩ := hd
    simp only [dictKeys, List.map_cons, List.nodup_cons] at hnd
    rcases List.mem_cons.mp hmem with h | h
    · obtain ⟨h1, h2⟩ := Prod.mk.injEq .. ▸ h
      cases h
      simp [alookup_cons]
    · have hk : k' ≠ k := by
        intro he
        subst he
        exact hnd.1 (List.mem_map.mpr ⟨(k', v), h, rfl⟩)
      simp [alookup_cons, hk]
      exact ih hnd.2 h

theorem mem_of_alookup_eq_some {β : Type} {m : List (String × β)} {k : String} {v : β}
    (h : alookup m k = some v) : (k, v) ∈ m := by
  induction m with
  | nil => simp [alookup_nil] at h
  | cons hd tl ih =>
    obtain ⟨k', v'⟩ := hd
    by_cases he : k' = k
    · subst he
      simp [alookup_cons] at h
      simp [h]
    · simp [alookup_cons, he] at h
      exact List.mem_cons_of_mem _ (ih h)

/- ------------------------------------------------------------------
   Edge map accessors (whyzen_graph_utils.py).
   ------------------------------------------------------------------ -/

/-- `edge_map.get(node_name, [])`: the direct-parent list of a node, empty for
an unknown node.  This is the body of `get_parents` (the returned `.copy()` is
identity for immutable Lean lists). -/
def get_parents (em : EdgeMap) (node : String) : List String :=
  (alookup em node).getD []

/-- `_build_children_map`, inner update step: append `child` to
`children[parent]`, creating the entry if the parent is not yet a key. -/
def addChild (m : List (String × List String)) (parent child : String) :
    List (String × List String) :=
  aset m parent ((alookup m parent).getD [] ++ [child])

/-- `_build_children_map`, per-node step: record `child` under each of its
parents, in parent-list order. -/
def addChildren (m : List (String × List String)) (e : String × List String) :
    List (String × List String) :=
  e.2.foldl (fun acc p => addChild acc p e.1) m

/-- `_build_children_map(edges)`: reverse mapping from nodes to their children.
Starts from `{name: [] for name in edges}` and scans nodes in key order,
parents in list order. -/
def build_children_map (em : EdgeMap) : List (String × List String) :=
  em.foldl addChildren (em.map (fun e => (e.1, ([] : List String))))

/-- `children_map.get(node_name, [])`: the child list of a node (body of
`get_children`). -/
def get_children (em : EdgeMap) (node : String) : List String :=
  (alookup (build_children_map em) node).getD []

/-- `get_roots(edges)`: keys of the edge map whose parent list is empty,
in key order. -/
def get_roots (em : EdgeMap) : List String :=
  (em.filter (fun e => e.2.isEmpty)).map Prod.fst

theorem addChild_lookup (m : List (String × List String)) (parent child q : String) :
    (alookup (addChild m parent child) q).getD [] =
      if parent = q then (alookup m q).getD [] ++ [child] else (alookup m q).getD [] := by
  unfold addChild
  rw [alookup_aset]
  by_cases h : parent = q
  · simp [h]
  · simp [h]

theorem addChildren_lookup (m : List (String × List String)) (e : String × List String)
    (q : String) :
    (alookup (addChildren m e) q).getD [] =
      (alookup m q).getD [] ++ List.replicate (e.2.count q) e.1 := by
  obtain ⟨c, ps⟩ := e
  show (alookup (ps.foldl (fun acc p => addChild acc p c) m) q).getD [] = _
  induction ps generalizing m with
  | nil => simp
  | cons p ps ih =>
    simp only [List.foldl_cons, List.count_cons]
    rw [ih]
    by_cases h : p = q
    · subst h
      rw [addChild_lookup]
      simp [List.replicate_succ', List.append_assoc]
      rw [← List.replicate_succ, ← List.replicate_succ']
    · have h2 : ¬ (q = p) := fun hh => h hh.symm
      rw [addChild_lookup]
      simp [h, h2]

theorem foldl_addChildren_lookup (em : EdgeMap) (m₀ : List (String × List String))
    (q : String) :
    (alookup (em.foldl addChildren m₀) q).getD [] =
      (alookup m₀ q).getD [] ++ em.flatMap (fun e => List.replicate (e.2.count q) e.1) := by
  induction em generalizing m₀ with
  | nil => simp
  | cons e tl ih =>
    rw [List.foldl_cons, List.flatMap_cons, ih, addChildren_lookup, List.append_assoc]

theorem build_children_map_lookup (em : EdgeMap) (q : String) :
    (alookup (build_children_map em) q).getD [] =
      em.flatMap (fun e => List.replicate (e.2.count q) e.1) := by
  unfold build_children_map
  rw [foldl_addChildren_lookup]
  have init : (alookup (em.map (fun e => (e.1, ([] : List String)))) q).getD [] = [] := by
    induction em with
    | nil => simp [alookup_nil]
    | cons hd tl ih =>
      rw [List.map_cons, alookup_cons]
      by_cases h : hd.1 = q <;> simp [h, ih]
  rw [init, List.nil_append]

/-- Every recorded child is a key of the edge map. -/
theorem mem_get_children_mem_keys {em : EdgeMap} {p c : String}
    (h : c ∈ get_children em p) : c ∈ dictKeys em := by
  unfold get_children at h
  rw [build_children_map_lookup] at h
  simp only [List.mem_flatMap] at h
  obtain ⟨e, he, hc⟩ := h
  rw [List.eq_of_mem_replicate hc]
  exact List.mem_map.mpr ⟨e, he, rfl⟩

/-- Membership characterization of the children index. -/
theorem mem_get_children_iff {em : EdgeMap} {p c : String} :
    c ∈ get_children em p ↔ ∃ ps, (c, ps) ∈ em ∧ p ∈ ps := by
  unfold get_children
  rw [build_children_map_lookup]
  simp only [List.mem_flatMap, List.mem_replicate]
  constructor
  · rintro ⟨e, he, hn, hc⟩
    subst hc
    refine ⟨e.2, by simpa using he, ?_⟩
    by_contra hp
    exact hn (List.count_eq_zero.mpr hp)
  · rintro ⟨ps, hmem, hp⟩
    refine ⟨(c, ps), hmem, ?_, rfl⟩
    simpa [List.count_eq_zero] using hp

/-- With unique keys, children membership matches parent membership. -/
theorem mem_get_children_iff_nodup {em : EdgeMap} (hnd : (dictKeys em).Nodup)
    {p c : String} : c ∈ get_children em p ↔ c ∈ dictKeys em ∧ p ∈ get_parents em c := by
  rw [mem_get_children_iff]
  constructor
  · rintro ⟨ps, hmem, hp⟩
    refine ⟨List.mem_map.mpr ⟨(c, ps), hmem, rfl⟩, ?_⟩
    unfold get_parents
    rw [alookup_of_mem_nodup hnd hmem]
    exact hp
  · rintro ⟨hk, hp⟩
    obtain ⟨⟨c', ps⟩, hmem, hc⟩ := List.mem_map.mp hk
    cases hc
    refine ⟨ps, hmem, ?_⟩
    unfold get_parents at hp
    rw [alookup_of_mem_nodup hnd hmem] at hp
    exact hp

/-- Count characterization: with unique keys, the multiplicity of `c` among
`p`'s children equals the multiplicity of `p` among `c`'s parents. -/
theorem count_get_children (em : EdgeMap) (hnd : (dictKeys em).Nodup) (p c : String) :
    (get_children em p).count c =
      if c ∈ dictKeys em then (get_parents em c).count p else 0 := by
  unfold get_children
  rw [build_children_map_lookup]
  induction em with
  | nil => simp [dictKeys]
  | cons e tl ih =>
    obtain ⟨k, ps⟩ := e
    simp only [dictKeys, List.map_cons, List.nodup_cons] at hnd
    obtain ⟨hni, hndt⟩ := hnd
    rw [List.flatMap_cons, List.count_append, List.count_replicate]
    by_cases hc : c = k
    · subst hc
      have h1 : (tl.flatMap (fun e => List.replicate (e.2.count p) e.1)).count c = 0 := by
        rw [List.count_eq_zero]
        intro hmem
        obtain ⟨e', he', hcmem⟩ := List.mem_flatMap.mp hmem
        rw [List.eq_of_mem_replicate hcmem] at hni
        exact hni (List.mem_map.mpr ⟨e', he', rfl⟩)
      rw [h1]
      have hck : c ∈ dictKeys ((c, ps) :: tl) := by simp [dictKeys]
      simp [hck, get_parents, alookup_cons]
    · have hcond : ((k, ps).1 == c) = false := by
        simp only [beq_eq_false_iff_ne, ne_eq]
        exact fun hh => hc hh.symm
      rw [hcond]
      simp only [Bool.false_eq_true, if_false, Nat.zero_add]
      rw [ih hndt]
      have hmemiff : (c ∈ dictKeys ((k, ps) :: tl)) ↔ c ∈ dictKeys tl := by
        simp only [dictKeys, List.map_cons, List.mem_cons]
        constructor
        · rintro (h | h)
          · exact absurd h hc
          · exact h
        · exact Or.inr
      by_cases hck : c ∈ dictKeys tl
      · rw [if_pos hck, if_pos (hmemiff.mpr hck)]
        unfold get_parents
        rw [alookup_cons, if_neg (fun hh => hc hh.symm)]
      · rw [if_neg hck, if_neg (fun hh => hck (hmemiff.mp hh))]

/- ------------------------------------------------------------------
   Reachability along an adjacency function, counted in steps.
   ------------------------------------------------------------------ -/

/-- `ReachN adj k x y`: there is a walk of exactly `k` edges from `x` to `y`,
where each step goes from a node to a member of its adjacency list. -/
def ReachN (adj : String → List String) : Nat → String → String → Prop
  | 0, x, y => x = y
  | k + 1, x, y => ∃ p, p ∈ adj x ∧ ReachN adj k p y

theorem reachN_zero (adj : String → List String) (x y : String) :
    ReachN adj 0 x y ↔ x = y := Iff.rfl

theorem reachN_succ (adj : String → List String) (k : Nat) (x y : String) :
    ReachN adj (k + 1) x y ↔ ∃ p, p ∈ adj x ∧ ReachN adj k p y := Iff.rfl

theorem reachN_add (adj : String → List String) (a b : Nat) (x z : String) :
    ReachN adj (a + b) x z ↔ ∃ y, ReachN adj a x y ∧ ReachN adj b y z := by
  induction a generalizing x with
  | zero =>
    simp only [Nat.zero_add]
    constructor
    · intro h
      exact ⟨x, rfl, h⟩
    · rintro ⟨y, hy, h⟩
      rw [reachN_zero] at hy
      subst hy
      exact h
  | succ a ih =>
    rw [Nat.succ_add]
    constructor
    · rintro ⟨p, hp, hr⟩
      obtain ⟨y, h1, h2⟩ := (ih p).mp hr
      exact ⟨y, ⟨p, hp, h1⟩, h2⟩
    · rintro ⟨y, ⟨p, hp, h1⟩, h2⟩
      exact ⟨p, hp, (ih p).mpr ⟨y, h1, h2⟩⟩

theorem reachN_snoc (adj : String → List String) (k : Nat) (x y : String) :
    ReachN adj (k + 1) x y ↔ ∃ z, ReachN adj k x z ∧ y ∈ adj z := by
  rw [reachN_add adj k 1]
  constructor
  · rintro ⟨z, h1, p, hp, h0⟩
    rw [reachN_zero] at h0
    subst h0
    exact ⟨z, h1, hp⟩
  · rintro ⟨z, h1, hy⟩
    exact ⟨z, h1, y, hy, rfl⟩

/-- Walks reverse when the adjacency relations are mutually inverse. -/
theorem reachN_rev {adj₁ adj₂ : String → List String}
    (H : ∀ a b, b ∈ adj₁ a ↔ a ∈ adj₂ b) :
    ∀ k x y, ReachN adj₁ k x y ↔ ReachN adj₂ k y x := by
  intro k
  induction k with
  | zero =>
    intro x y
    rw [reachN_zero, reachN_zero]
    exact eq_comm
  | succ k ih =>
    intro x y
    rw [reachN_succ, reachN_snoc]
    constructor
    · rintro ⟨p, hp, hr⟩
      exact ⟨p, (ih p y).mp hr, (H x p).mp hp⟩
    · rintro ⟨z, hr, hx⟩
      exact ⟨z, (H x z).mpr hx, (ih z y).mpr hr⟩

/- ------------------------------------------------------------------
   Pre-order depth-first traversal with a visited set (get_ancestors /
   get_descendants of whyzen_graph_utils.py).  The Python code keeps a
   `visited` set and an `ancestors` list that always hold the same
   elements; the model keeps the single ordered list.  Python's
   unbounded recursion is modelled with a fuel argument large enough
   (proved below) never to run out.
   ------------------------------------------------------------------ -/

/-- One `traverse(current)` call: for each neighbour in order, if unvisited,
record it and recurse into it. -/
def dfsGo (adj : String → List String) : Nat → String → List String → List String
  | 0, _, acc => acc
  | fuel + 1, current, acc =>
    (adj current).foldl
      (fun a p => if p ∈ a then a else dfsGo adj fuel p (a ++ [p])) acc

/-- Fuel that provably suffices for the ancestor traversal: more than the
total number of parent occurrences. -/
def dfsFuel (em : EdgeMap) : Nat := (em.flatMap Prod.snd).length + 1

/-- `get_ancestors(node)`: pre-order DFS over direct parents. -/
def get_ancestors (em : EdgeMap) (node : String) : List String :=
  dfsGo (get_parents em) (dfsFuel em) node []

/-- `get_descendants(node)`: pre-order DFS over the children index. -/
def get_descendants (em : EdgeMap) (node : String) : List String :=
  dfsGo (get_children em) (em.length + 1) node []

theorem foldl_pref {α β : Type} (f : List α → β → List α)
    (hf : ∀ a b, a <+: f a b) :
    ∀ (l : List β) (acc : List α), acc <+: l.foldl f acc := by
  intro l
  induction l with
  | nil => intro acc; exact List.prefix_rfl
  | cons b l ih =>
    intro acc
    exact (hf acc b).trans (ih (f acc b))

theorem foldl_preserve {α β : Type} (f : α → β → α) (P : α → Prop)
    (hf : ∀ a b, P a → P (f a b)) :
    ∀ (l : List β) (acc : α), P acc → P (l.foldl f acc) := by
  intro l
  induction l with
  | nil => intro acc h; exact h
  | cons b l ih => intro acc h; exact ih (f acc b) (hf acc b h)

theorem dfsGo_pref (adj : String → List String) :
    ∀ fuel current acc, acc <+: dfsGo adj fuel current acc := by
  intro fuel
  induction fuel with
  | zero => intro current acc; exact List.prefix_rfl
  | succ f ih =>
    intro current acc
    apply foldl_pref
    intro a p
    by_cases hp : p ∈ a
    · simp [hp]
    · simp only [hp, if_false]
      exact (List.prefix_append a [p]).trans (ih p (a ++ [p]))

theorem dfsGo_subset (adj : String → List String) (fuel : Nat) (current : String)
    (acc : List String) : acc ⊆ dfsGo adj fuel current acc :=
  (dfsGo_pref adj fuel current acc).subset

theorem dfsGo_nodup (adj : String → List String) :
    ∀ fuel current acc, acc.Nodup → (dfsGo adj fuel current acc).Nodup := by
  intro fuel
  induction fuel with
  | zero => intro current acc h; exact h
  | succ f ih =>
    intro current acc h
    show ((adj current).foldl
      (fun a p => if p ∈ a then a else dfsGo adj f p (a ++ [p])) acc).Nodup
    refine foldl_preserve _ (fun a => a.Nodup) ?_ (adj current) acc h
    intro a p ha
    by_cases hp : p ∈ a
    · simpa [hp] using ha
    · simp only [hp, if_false]
      exact ih p (a ++ [p]) (by simp [List.nodup_append, ha, hp])

/-- Everything the traversal records beyond the start accumulator is reachable
from the start node in at least one step. -/
theorem dfsGo_sound (adj : String → List String) :
    ∀ fuel current acc x, x ∈ dfsGo adj fuel current acc →
      x ∈ acc ∨ ∃ k, 0 < k ∧ ReachN adj k current x := by
  intro fuel
  induction fuel with
  | zero => intro current acc x h; exact Or.inl h
  | succ f ih =>
    intro current acc x h
    simp only [dfsGo] at h
    have key : ∀ (l : List String), (∀ p ∈ l, p ∈ adj current) → ∀ acc,
        x ∈ l.foldl (fun a p => if p ∈ a then a else dfsGo adj f p (a ++ [p])) acc →
        x ∈ acc ∨ ∃ k, 0 < k ∧ ReachN adj k current x := by
      intro l
      induction l with
      | nil => intro _ acc h; exact Or.inl h
      | cons p l ihl =>
        intro hl acc h
        rw [List.foldl_cons] at h
        rcases ihl (fun q hq => hl q (List.mem_cons_of_mem _ hq)) _ h with h1 | h1
        · by_cases hp : p ∈ acc
          · rw [if_pos hp] at h1
            exact Or.inl h1
          · rw [if_neg hp] at h1
            rcases ih p (acc ++ [p]) x h1 with h2 | ⟨k, hk, hr⟩
            · rcases List.mem_append.mp h2 with h3 | h3
              · exact Or.inl h3
              · have hx : x = p := by simpa using h3
                subst hx
                exact Or.inr ⟨1, Nat.one_pos, ⟨x, hl x (List.mem_cons_self _ _), rfl⟩⟩
            · exact Or.inr ⟨k + 1, Nat.succ_pos _,
                ⟨p, hl p (List.mem_cons_self _ _), hr⟩⟩
        · exact Or.inr h1
    exact key (adj current) (fun _ hq => hq) acc h

theorem length_filter_mono {α : Type} (l : List α) (p q : α → Bool)
    (h : ∀ x, p x = true → q x = true) :
    (l.filter p).length ≤ (l.filter q).length := by
  induction l with
  | nil => simp
  | cons a l ih =>
    by_cases hp : p a = true
    · simp [List.filter_cons, hp, h a hp]
      omega
    · have hp' : p a = false := by
        cases hpa : p a
        · rfl
        · exact absurd hpa hp
      by_cases hq : q a = true
      · simp [List.filter_cons, hp', hq]
        omega
      · have hq' : q a = false := by
          cases hqa : q a
          · rfl
          · exact absurd hqa hq
        simpa [List.filter_cons, hp', hq'] using ih

theorem length_filter_lt {α : Type} (l : List α) (p q : α → Bool)
    (h : ∀ x, p x = true → q x = true) (x₀ : α) (hx : x₀ ∈ l)
    (hq : q x₀ = true) (hp : p x₀ = false) :
    (l.filter p).length < (l.filter q).length := by
  induction l with
  | nil => simp at hx
  | cons a l ih =>
    rcases List.mem_cons.mp hx with h1 | h1
    · subst h1
      rw [List.filter_cons, List.filter_cons, hp, hq]
      simp only [Bool.false_eq_true, if_false, if_true, List.length_cons]
      exact Nat.lt_succ_of_le (length_filter_mono l p q h)
    · by_cases hpa : p a = true
      · have hrec := ih h1
        simp only [List.filter_cons, hpa, h a hpa, if_true, List.length_cons]
        omega
      · have hpa' : p a = false := by
          cases hv : p a
          · rfl
          · exact absurd hv hpa
        have hrec := ih h1
        by_cases hqa : q a = true
        · simp only [List.filter_cons, hpa', hqa, Bool.false_eq_true, if_false, if_true,
            List.length_cons]
          omega
        · have hqa' : q a = false := by
            cases hv : q a
            · rfl
            · exact absurd hv hqa
          simpa [List.filter_cons, hpa', hqa'] using hrec

/-- The remaining-fresh-nodes measure used to show the DFS fuel suffices. -/
def freshCount (U acc : List String) : Nat :=
  (U.filter (fun u => decide (u ∉ acc))).length

theorem freshCount_le_of_subset {U acc acc' : List String} (h : acc ⊆ acc') :
    freshCount U acc' ≤ freshCount U acc := by
  apply length_filter_mono
  intro x hx
  simp only [decide_eq_true_eq] at hx ⊢
  exact fun hmem => hx (h hmem)

theorem freshCount_lt_of_fresh {U acc : List String} {p : String}
    (hU : p ∈ U) (hp : p ∉ acc) :
    freshCount U (acc ++ [p]) < freshCount U acc := by
  refine length_filter_lt U _ _ ?_ p hU ?_ ?_
  · intro x hx
    simp only [decide_eq_true_eq, List.mem_append, List.mem_singleton] at hx ⊢
    exact fun hmem => hx (Or.inl hmem)
  · simp [hp]
  · simp

/-- With enough fuel, the traversal visits every neighbour of the start node,
and its output is closed under the adjacency function (away from the initial
accumulator).  This is the completeness half of the DFS contract. -/
theorem dfsGo_complete (adj : String → List String) (U : List String)
    (hadj : ∀ x p, p ∈ adj x → p ∈ U) :
    ∀ fuel current acc, freshCount U acc < fuel →
      (∀ p, p ∈ adj current → p ∈ dfsGo adj fuel current acc) ∧
      (∀ x, x ∈ dfsGo adj fuel current acc →
        x ∈ acc ∨ ∀ p, p ∈ adj x → p ∈ dfsGo adj fuel current acc) := by
  intro fuel
  induction fuel with
  | zero =>
    intro current acc h
    omega
  | succ f ih =>
    intro current acc hm
    -- Main fold invariant: every processed neighbour lands in the result, and
    -- the closure property (relative to the original accumulator) is preserved.
    have key : ∀ (l : List String), (∀ p ∈ l, p ∈ U) → ∀ a, acc ⊆ a →
        (∀ x, x ∈ a → x ∈ acc ∨ ∀ p, p ∈ adj x → p ∈ a) →
        (∀ p, p ∈ l →
            p ∈ l.foldl (fun a p => if p ∈ a then a else dfsGo adj f p (a ++ [p])) a) ∧
          a ⊆ l.foldl (fun a p => if p ∈ a then a else dfsGo adj f p (a ++ [p])) a ∧
          (∀ x, x ∈ l.foldl (fun a p => if p ∈ a then a else dfsGo adj f p (a ++ [p])) a →
            x ∈ acc ∨ ∀ p, p ∈ adj x →
              p ∈ l.foldl (fun a p => if p ∈ a then a else dfsGo adj f p (a ++ [p])) a) := by
      intro l
      induction l with
      | nil =>
        intro _ a hsub hclosed
        exact ⟨fun p hp => absurd hp (List.not_mem_nil p), fun x hx => hx, hclosed⟩
      | cons p l ihl =>
        intro hl a hsub hclosed
        simp only [List.foldl_cons]
        by_cases hp : p ∈ a
        · rw [if_pos hp]
          have hres := ihl (fun q hq => hl q (List.mem_cons_of_mem _ hq)) a hsub hclosed
          refine ⟨?_, hres.2.1, hres.2.2⟩
          intro q hq
          rcases List.mem_cons.mp hq with h1 | h1
          · subst h1
            exact hres.2.1 hp
          · exact hres.1 q h1
        · rw [if_neg hp]
          have hpU : p ∈ U := hl p (List.mem_cons_self _ _)
          have hfuel : freshCount U (a ++ [p]) < f := by
            have h1 : freshCount U (a ++ [p]) < freshCount U a :=
              freshCount_lt_of_fresh hpU hp
            have h2 : freshCount U a ≤ freshCount U acc := freshCount_le_of_subset hsub
            omega
          obtain ⟨hsub1, hclosed1⟩ := ih p (a ++ [p]) hfuel
          have hab : a ⊆ dfsGo adj f p (a ++ [p]) := fun x hx =>
            dfsGo_subset adj f p (a ++ [p]) (List.mem_append_left _ hx)
          have hpb : p ∈ dfsGo adj f p (a ++ [p]) :=
            dfsGo_subset adj f p (a ++ [p])
              (List.mem_append_right _ (List.mem_singleton.mpr rfl))
          have hclosedb : ∀ x, x ∈ dfsGo adj f p (a ++ [p]) →
              x ∈ acc ∨ ∀ q, q ∈ adj x → q ∈ dfsGo adj f p (a ++ [p]) := by
            intro x hx
            rcases hclosed1 x hx with h1 | h1
            · rcases List.mem_append.mp h1 with h2 | h2
              · rcases hclosed x h2 with h3 | h3
                · exact Or.inl h3
                · exact Or.inr (fun q hq => hab (h3 q hq))
              · have hxp : x = p := by simpa using h2
                subst hxp
                exact Or.inr hsub1
            · exact Or.inr h1
          have hres := ihl (fun q hq => hl q (List.mem_cons_of_mem _ hq))
            (dfsGo adj f p (a ++ [p])) (fun x hx => hab (hsub hx)) hclosedb
          refine ⟨?_, fun x hx => hres.2.1 (hab hx), hres.2.2⟩
          intro q hq
          rcases List.mem_cons.mp hq with h1 | h1
          · subst h1
            exact hres.2.1 hpb
          · exact hres.1 q h1
    have hres := key (adj current) (fun p hp => hadj current p hp) acc
      (fun x hx => hx) (fun x hx => Or.inl hx)
    exact ⟨fun p hp => hres.1 p hp, fun x hx => hres.2.2 x hx⟩

theorem freshCount_nil (U : List String) : freshCount U [] = U.length := by
  simp [freshCount]

theorem get_parents_mem_flatMap {em : EdgeMap} {x p : String}
    (h : p ∈ get_parents em x) : p ∈ em.flatMap Prod.snd := by
  unfold get_parents at h
  cases hl : alookup em x with
  | none => rw [hl] at h; simp at h
  | some ps =>
    rw [hl] at h
    simp only [Option.getD_some] at h
    exact List.mem_flatMap.mpr ⟨(x, ps), mem_of_alookup_eq_some hl, h⟩

/-- Membership in `get_ancestors` is exactly reachability through one or more
parent edges. -/
theorem mem_get_ancestors_iff (em : EdgeMap) (n x : String) :
    x ∈ get_ancestors em n ↔ ∃ k, 0 < k ∧ ReachN (get_parents em) k n x := by
  constructor
  · intro h
    rcases dfsGo_sound (get_parents em) (dfsFuel em) n [] x h with h1 | h1
    · simp at h1
    · exact h1
  · rintro ⟨k, hk, hr⟩
    have hcompl := dfsGo_complete (get_parents em) (em.flatMap Prod.snd)
      (fun _ _ hp => get_parents_mem_flatMap hp) (dfsFuel em) n []
      (by rw [freshCount_nil]; unfold dfsFuel; omega)
    have main : ∀ k x, 0 < k → ReachN (get_parents em) k n x → x ∈ get_ancestors em n := by
      intro k
      induction k with
      | zero => intro x h; omega
      | succ k ihk =>
        intro x _ hr
        rcases (reachN_snoc _ k n x).mp hr with ⟨z, hz, hxz⟩
        rcases Nat.eq_zero_or_pos k with h0 | hkpos
        · subst h0
          rw [reachN_zero] at hz
          subst hz
          exact hcompl.1 x hxz
        · have hzmem := ihk z hkpos hz
          rcases hcompl.2 z hzmem with h1 | h1
          · simp at h1
          · exact h1 x hxz
    exact main k x hk hr

/-- Membership in `get_descendants` is exactly reachability through one or
more child edges. -/
theorem mem_get_descendants_iff (em : EdgeMap) (n x : String) :
    x ∈ get_descendants em n ↔ ∃ k, 0 < k ∧ ReachN (get_children em) k n x := by
  constructor
  · intro h
    rcases dfsGo_sound (get_children em) (em.length + 1) n [] x h with h1 | h1
    · simp at h1
    · exact h1
  · rintro ⟨k, hk, hr⟩
    have hcompl := dfsGo_complete (get_children em) (dictKeys em)
      (fun _ _ hp => mem_get_children_mem_keys hp) (em.length + 1) n []
      (by rw [freshCount_nil]; unfold dictKeys; rw [List.length_map]; omega)
    have main : ∀ k x, 0 < k → ReachN (get_children em) k n x →
        x ∈ get_descendants em n := by
      intro k
      induction k with
      | zero => intro x h; omega
      | succ k ihk =>
        intro x _ hr
        rcases (reachN_snoc _ k n x).mp hr with ⟨z, hz, hxz⟩
        rcases Nat.eq_zero_or_pos k with h0 | hkpos
        · subst h0
          rw [reachN_zero] at hz
          subst hz
          exact hcompl.1 x hxz
        · have hzmem := ihk z hkpos hz
          rcases hcompl.2 z hzmem with h1 | h1
          · simp at h1
          · exact h1 x hxz
    exact main k x hk hr

theorem get_ancestors_nodup (em : EdgeMap) (n : String) :
    (get_ancestors em n).Nodup :=
  dfsGo_nodup _ _ _ _ List.nodup_nil

theorem get_descendants_nodup (em : EdgeMap) (n : String) :
    (get_descendants em n).Nodup :=
  dfsGo_nodup _ _ _ _ List.nodup_nil

example : get_ancestors [("A", []), ("B", ["A"]), ("C", ["A"]), ("D", ["B", "C"])] "D"
    = ["B", "A", "C"] := by decide

example : get_ancestors [("A", ["B"]), ("B", ["A"])] "A" = ["B", "A"] := by decide

/-- Modelled from the spec, for comparison with the code: "returns ancestors in
first-visit order of a pre-order DFS starting from the node's direct parents",
visiting a neighbour before that neighbour's own neighbours, skipping nodes
already visited, recording each node the first time it is seen. -/
def preorderFirstVisit (adj : String → List String) :
    Nat → String → List String → List String
  | 0, _, visited => visited
  | fuel + 1, node, visited =>
    (adj node).foldl
      (fun vis q => if q ∈ vis then vis else preorderFirstVisit adj fuel q (vis ++ [q]))
      visited

theorem dfsGo_eq_preorderFirstVisit (adj : String → List String) :
    ∀ fuel current acc, dfsGo adj fuel current acc = preorderFirstVisit adj fuel current acc := by
  intro fuel
  induction fuel with
  | zero => intro current acc; rfl
  | succ f ihf =>
    intro current acc
    show (adj current).foldl _ acc = (adj current).foldl _ acc
    apply List.foldl_ext
    intro a b _
    by_cases hb : b ∈ a
    · simp [hb]
    · simp [hb, ihf]

/- ------------------------------------------------------------------
   would_create_cycle (whyzen_graph_utils.py): self-loop check plus a
   depth-first reachability search from target towards source over the
   children index, with a shared visited set.
   ------------------------------------------------------------------ -/

/-- One `can_reach(current, goal)` call.  Returns the flag and the visited
set (threaded explicitly; Python shares one mutable set). -/
def canReachGo (adj : String → List String) :
    Nat → String → String → List String → Bool × List String
  | 0, _, _, vis => (false, vis)
  | fuel + 1, current, goal, vis =>
    if current = goal then (true, vis)
    else if current ∈ vis then (false, vis)
    else
      (adj current).foldl
        (fun st child => if st.1 then st else canReachGo adj fuel child goal st.2)
        (false, vis ++ [current])

/-- `would_create_cycle(source, target)`: true for a self-loop, otherwise true
iff `target` can already reach `source` along child edges. -/
def would_create_cycle (em : EdgeMap) (source target : String) : Bool :=
  if source = target then true
  else (canReachGo (get_children em) (em.length + 2) target source []).1

theorem canReach_foldl_true (adj : String → List String) (f : Nat) (goal : String)
    (l : List String) (v : List String) :
    l.foldl (fun st child => if st.1 then st else canReachGo adj f child goal st.2)
      (true, v) = (true, v) := by
  induction l with
  | nil => rfl
  | cons q l ih => simpa using ih

/-- Soundness: a true answer means a walk from `current` to `goal` exists. -/
theorem canReachGo_true (adj : String → List String) (goal : String) :
    ∀ fuel current vis, (canReachGo adj fuel current goal vis).1 = true →
      ∃ k, ReachN adj k current goal := by
  intro fuel
  induction fuel with
  | zero => intro current vis h; simp [canReachGo] at h
  | succ f ih =>
    intro current vis h
    by_cases hg : current = goal
    · exact ⟨0, hg⟩
    · by_cases hv : current ∈ vis
      · simp [canReachGo, hg, hv] at h
      · simp only [canReachGo, hg, if_false, hv, ite_false] at h
        -- extract a successful child call from the fold
        have key : ∀ (l : List String) (v : List String),
            (l.foldl (fun st child => if st.1 then st else canReachGo adj f child goal st.2)
              (false, v)).1 = true →
            ∃ child ∈ l, ∃ v', (canReachGo adj f child goal v').1 = true := by
          intro l
          induction l with
          | nil => intro v hv'; simp at hv'
          | cons q l ihl =>
            intro v hfold
            rw [List.foldl_cons] at hfold
            simp only [Bool.false_eq_true, if_false] at hfold
            by_cases hq : (canReachGo adj f q goal v).1 = true
            · exact ⟨q, List.mem_cons_self _ _, v, hq⟩
            · have hpair : canReachGo adj f q goal v
                  = (false, (canReachGo adj f q goal v).2) := by
                have : (canReachGo adj f q goal v).1 = false := by
                  cases hb : (canReachGo adj f q goal v).1
                  · rfl
                  · exact absurd hb hq
                exact Prod.ext this rfl
              rw [hpair] at hfold
              obtain ⟨c, hc, v', hv'⟩ := ihl _ hfold
              exact ⟨c, List.mem_cons_of_mem _ hc, v', hv'⟩
        obtain ⟨child, hchild, v', hv'⟩ := key (adj current) (vis ++ [current]) h
        obtain ⟨k, hk⟩ := ih child v' hv'
        exact ⟨k + 1, child, hchild, hk⟩

/-- Completeness core: a false answer leaves a visited set that contains the
start, extends the input set, and whose new elements avoid the goal and are
closed under adjacency. -/
theorem canReachGo_false (adj : String → List String) (goal : String) (U : List String)
    (hadj : ∀ x q, q ∈ adj x → q ∈ U) :
    ∀ fuel current vis, current ∈ U → freshCount U vis < fuel →
      (canReachGo adj fuel current goal vis).1 = false →
      current ∈ (canReachGo adj fuel current goal vis).2 ∧
      vis <+: (canReachGo adj fuel current goal vis).2 ∧
      (∀ x, x ∈ (canReachGo adj fuel current goal vis).2 → x ∉ vis →
        x ≠ goal ∧ ∀ q, q ∈ adj x → q ∈ (canReachGo adj fuel current goal vis).2) := by
  intro fuel
  induction fuel with
  | zero => intro current vis _ hfuel; omega
  | succ f ih =>
    intro current vis hcur hfuel hfalse
    by_cases hg : current = goal
    · simp [canReachGo, hg] at hfalse
    · by_cases hv : current ∈ vis
      · have hres : canReachGo adj (f + 1) current goal vis = (false, vis) := by
          simp [canReachGo, hg, hv]
        rw [hres]
        exact ⟨hv, List.prefix_rfl, fun x hx hnx => absurd hx hnx⟩
      · simp only [canReachGo, hg, if_false, hv, ite_false] at hfalse ⊢
        have hvc : freshCount U (vis ++ [current]) < freshCount U vis :=
          freshCount_lt_of_fresh hcur hv
        have key : ∀ (l : List String), (∀ q ∈ l, q ∈ U) → ∀ v,
            (vis ++ [current]) <+: v → freshCount U v < f →
            (l.foldl (fun st child => if st.1 then st else canReachGo adj f child goal st.2)
              (false, v)).1 = false →
            (∀ q ∈ l, q ∈ (l.foldl
                (fun st child => if st.1 then st else canReachGo adj f child goal st.2)
                (false, v)).2) ∧
            v <+: (l.foldl
                (fun st child => if st.1 then st else canReachGo adj f child goal st.2)
                (false, v)).2 ∧
            (∀ x, x ∈ (l.foldl
                (fun st child => if st.1 then st else canReachGo adj f child goal st.2)
                (false, v)).2 → x ∉ v →
              x ≠ goal ∧ ∀ q, q ∈ adj x → q ∈ (l.foldl
                (fun st child => if st.1 then st else canReachGo adj f child goal st.2)
                (false, v)).2) := by
          intro l
          induction l with
          | nil =>
            intro _ v _ _ _
            exact ⟨fun q hq => absurd hq (List.not_mem_nil q), List.prefix_rfl,
              fun x hx hnx => absurd hx hnx⟩
          | cons q l ihl =>
            intro hl v hpre hfc hfold
            rw [List.foldl_cons] at hfold ⊢
            simp only [Bool.false_eq_true, if_false] at hfold ⊢
            by_cases hq : (canReachGo adj f q goal v).1 = true
            · exfalso
              have hpair : canReachGo adj f q goal v
                  = (true, (canReachGo adj f q goal v).2) := Prod.ext hq rfl
              rw [hpair, canReach_foldl_true] at hfold
              simp at hfold
            · have hq' : (canReachGo adj f q goal v).1 = false := by
                cases hb : (canReachGo adj f q goal v).1
                · rfl
                · exact absurd hb hq
              have hchild := ih q v (hl q (List.mem_cons_self _ _)) hfc hq'
              have hpair : canReachGo adj f q goal v
                  = (false, (canReachGo adj f q goal v).2) := Prod.ext hq' rfl
              rw [hpair] at hfold ⊢
              have hsub1 : v ⊆ (canReachGo adj f q goal v).2 := hchild.2.1.subset
              have hrest := ihl (fun c hc => hl c (List.mem_cons_of_mem _ hc))
                ((canReachGo adj f q goal v).2) (hpre.trans hchild.2.1)
                (Nat.lt_of_le_of_lt (freshCount_le_of_subset hsub1) hfc) hfold
              refine ⟨?_, hchild.2.1.trans hrest.2.1, ?_⟩
              · intro c hc
                rcases List.mem_cons.mp hc with h1 | h1
                · subst h1
                  exact hrest.2.1.subset hchild.1
                · exact hrest.1 c h1
              · intro x hx hnx
                by_cases hxv : x ∈ (canReachGo adj f q goal v).2
                · obtain ⟨hng, hcl⟩ := hchild.2.2 x hxv hnx
                  exact ⟨hng, fun c hc => hrest.2.1.subset (hcl c hc)⟩
                · obtain ⟨hng, hcl⟩ := hrest.2.2 x hx hxv
                  exact ⟨hng, hcl⟩
        have hkey := key (adj current) (fun q hq => hadj current q hq) (vis ++ [current])
          List.prefix_rfl (by omega) hfalse
        have hpc : current ∈ (vis ++ [current]) :=
          List.mem_append_right _ (List.mem_singleton.mpr rfl)
        refine ⟨hkey.2.1.subset hpc, (List.prefix_append vis [current]).trans hkey.2.1, ?_⟩
        intro x hx hnx
        by_cases hxin : x ∈ vis ++ [current]
        · have hxc : x = current := by
            rcases List.mem_append.mp hxin with h1 | h1
            · exact absurd h1 hnx
            · simpa using h1
          subst hxc
          exact ⟨hg, fun c hc => hkey.1 c hc⟩
        · exact hkey.2.2 x hx hxin

/-- The cycle check answers true exactly when `target` reaches `source`
through zero or more child edges (zero steps covering the self-loop case). -/
theorem would_create_cycle_iff (em : EdgeMap) (source target : String) :
    would_create_cycle em source target = true ↔
      ∃ k, ReachN (get_children em) k target source := by
  unfold would_create_cycle
  by_cases hst : source = target
  · subst hst
    refine ⟨fun _ => ⟨0, rfl⟩, fun _ => ?_⟩
    simp
  · rw [if_neg hst]
    constructor
    · intro h
      exact canReachGo_true (get_children em) source (em.length + 2) target [] h
    · rintro ⟨k, hk⟩
      by_contra hfalse
      have hfalse' : (canReachGo (get_children em) (em.length + 2) target source []).1
          = false := by
        cases hb : (canReachGo (get_children em) (em.length + 2) target source []).1
        · rfl
        · exact absurd hb hfalse
      have hres := canReachGo_false (get_children em) source (target :: dictKeys em)
        (fun x q hq => List.mem_cons_of_mem _ (mem_get_children_mem_keys hq))
        (em.length + 2) target [] (List.mem_cons_self _ _)
        (by rw [freshCount_nil]
            simp only [List.length_cons, dictKeys, List.length_map]
            omega)
        hfalse'
      -- every node reachable from `target` sits in the final visited set
      have hwalk : ∀ j x, ReachN (get_children em) j target x →
          x ∈ (canReachGo (get_children em) (em.length + 2) target source []).2 := by
        intro j
        induction j with
        | zero =>
          intro x hx
          rw [reachN_zero] at hx
          subst hx
          exact hres.1
        | succ j ihj =>
          intro x hx
          rcases (reachN_snoc _ j target x).mp hx with ⟨z, hz, hxz⟩
          have hzmem := ihj z hz
          exact (hres.2.2 z hzmem (List.not_mem_nil z)).2 x hxz
      have hsrc := hwalk k source hk
      exact (hres.2.2 source hsrc (List.not_mem_nil source)).1 rfl

/-- With unique keys, the child relation is the exact inverse of the parent
relation (children lists only ever mention keys, and non-keys have an empty
parent list). -/
theorem mem_children_iff_mem_parents {em : EdgeMap} (hnd : (dictKeys em).Nodup)
    (a b : String) : b ∈ get_children em a ↔ a ∈ get_parents em b := by
  rw [mem_get_children_iff_nodup hnd]
  constructor
  · rintro ⟨_, h⟩
    exact h
  · intro h
    refine ⟨?_, h⟩
    by_contra hb
    rw [get_parents, alookup_eq_none_of_not_mem_keys hb] at h
    simp at h

theorem reachN_children_iff_parents {em : EdgeMap} (hnd : (dictKeys em).Nodup)
    (k : Nat) (x y : String) :
    ReachN (get_children em) k x y ↔ ReachN (get_parents em) k y x :=
  reachN_rev (fun a b => mem_children_iff_mem_parents hnd a b) k x y

example : would_create_cycle [("A", []), ("B", ["A"]), ("C", ["A"]), ("D", ["B", "C"])]
    "D" "A" = true := by decide

example : would_create_cycle [("A", []), ("B", ["A"]), ("C", ["A"]), ("D", ["B", "C"])]
    "A" "D" = false := by decide

/- ------------------------------------------------------------------
   topological_sort (whyzen_graph_utils.py): Kahn's algorithm.
   In-degrees are kept as integers, as Python ints can go negative;
   the loop is modelled with fuel that provably suffices.
   ------------------------------------------------------------------ -/

/-- Per-dequeued-node child processing: decrement the child's in-degree and
enqueue it when the count reaches exactly zero. -/
def kahnStep (indeg : List (String × Int)) (queue : List String)
    (children : List String) : List (String × Int) × List String :=
  children.foldl
    (fun st child =>
      if (alookup st.1 child).getD 0 - 1 = 0 then
        (aset st.1 child ((alookup st.1 child).getD 0 - 1), st.2 ++ [child])
      else
        (aset st.1 child ((alookup st.1 child).getD 0 - 1), st.2))
    (indeg, queue)

/-- The while loop of `topological_sort`: pop, append to the result, process
the popped node's children. -/
def kahnGo (em : EdgeMap) :
    Nat → List (String × Int) → List String → List String → List String
  | 0, _, _, result => result
  | fuel + 1, indeg, queue, result =>
    match queue with
    | [] => result
    | node :: rest =>
      kahnGo em fuel (kahnStep indeg rest (get_children em node)).1
        (kahnStep indeg rest (get_children em node)).2 (result ++ [node])

/-- `in_degree = {name: len(parents) for name, parents in edge_map.items()}`. -/
def initIndeg (em : EdgeMap) : List (String × Int) :=
  em.map (fun e => (e.1, (e.2.length : Int)))

/-- `queue = deque([name for name, degree in in_degree.items() if degree == 0])`. -/
def initQueue (em : EdgeMap) : List String :=
  ((initIndeg em).filter (fun p => p.2 = 0)).map Prod.fst

/-- The list produced by the Kahn loop. -/
def kahnRun (em : EdgeMap) : List String :=
  kahnGo em (em.length + 1) (initIndeg em) (initQueue em) []

def cycleMsg : String := "Graph contains a cycle - topological sort not possible"

/-- `topological_sort(edges)`: the Kahn result, or a `ValueError` when its
length differs from the node count. -/
def topological_sort (em : EdgeMap) : Except String (List String) :=
  if (kahnRun em).length ≠ em.length then Except.error cycleMsg
  else Except.ok (kahnRun em)

/-- Parent occurrences of `k` not yet emitted to `result`. -/
def remDeg (em : EdgeMap) (result : List String) (k : String) : Nat :=
  (get_parents em k).countP (fun p => decide (p ∉ result))

theorem remDeg_eq_zero_iff (em : EdgeMap) (result : List String) (k : String) :
    remDeg em result k = 0 ↔ ∀ p ∈ get_parents em k, p ∈ result := by
  simp [remDeg, List.countP_eq_zero]

theorem remDeg_nil (em : EdgeMap) (k : String) :
    remDeg em [] k = (get_parents em k).length := by
  simp [remDeg]

theorem count_le_countP_notmem (l : List String) (v : String) (result : List String)
    (hv : v ∉ result) : l.count v ≤ l.countP (fun p => decide (p ∉ result)) := by
  induction l with
  | nil => simp
  | cons a l ih =>
    rw [List.countP_cons]
    by_cases hav : a = v
    · subst hav
      rw [List.count_cons_self]
      have hd : (decide (a ∉ result)) = true := by simp [hv]
      rw [hd, if_pos rfl]
      omega
    · rw [List.count_cons_of_ne (fun hh => hav hh.symm)]
      by_cases har : a ∈ result
      · have hd : (decide (a ∉ result)) = false := by simp [har]
        rw [hd, if_neg Bool.false_ne_true]
        omega
      · have hd : (decide (a ∉ result)) = true := by simp [har]
        rw [hd, if_pos rfl]
        omega

theorem countP_split_snoc (l : List String) (result : List String) (v : String)
    (hv : v ∉ result) :
    l.countP (fun p => decide (p ∉ result)) =
      l.countP (fun p => decide (p ∉ result ++ [v])) + l.count v := by
  induction l with
  | nil => simp
  | cons a l ih =>
    rw [List.countP_cons, List.countP_cons]
    by_cases hav : a = v
    · subst hav
      rw [List.count_cons_self]
      have h1 : (decide (a ∉ result)) = true := by simp [hv]
      have h2 : (decide (a ∉ result ++ [a])) = false := by simp
      rw [h1, h2, if_pos rfl, if_neg Bool.false_ne_true]
      omega
    · rw [List.count_cons_of_ne (fun hh => hav hh.symm)]
      by_cases har : a ∈ result
      · have h2 : (decide (a ∉ result)) = false := by simp [har]
        have h3 : (decide (a ∉ result ++ [v])) = false := by simp [har]
        rw [h2, h3]
        omega
      · have h2 : (decide (a ∉ result)) = true := by simp [har]
        have h3 : (decide (a ∉ result ++ [v])) = true := by simp [har, hav]
        rw [h2, h3]
        omega

theorem remDeg_snoc (em : EdgeMap) (result : List String) (v k : String)
    (hv : v ∉ result) :
    remDeg em result k = remDeg em (result ++ [v]) k + (get_parents em k).count v :=
  countP_split_snoc (get_parents em k) result v hv

/-- Effect of one child-processing pass: in-degrees drop by the child
multiplicities, and exactly the nodes whose counter lands on zero are
appended to the queue, each at most once. -/
theorem kahnStep_spec :
    ∀ (cs : List String) (indeg : List (String × Int)) (queue : List String),
      (∀ c ∈ cs, (cs.count c : Int) ≤ (alookup indeg c).getD 0) →
      (∀ k, (alookup (kahnStep indeg queue cs).1 k).getD 0
          = (alookup indeg k).getD 0 - cs.count k) ∧
      ∃ extra, (kahnStep indeg queue cs).2 = queue ++ extra ∧ extra.Nodup ∧
        ∀ k, k ∈ extra ↔ 0 < cs.count k ∧ (alookup indeg k).getD 0 = (cs.count k : Int) := by
  intro cs
  induction cs with
  | nil =>
    intro indeg queue _
    refine ⟨fun k => by simp [kahnStep], [], by simp [kahnStep], List.nodup_nil, ?_⟩
    intro k
    simp
  | cons c₀ cs ih =>
    intro indeg queue H
    have hstep : kahnStep indeg queue (c₀ :: cs)
        = kahnStep (aset indeg c₀ ((alookup indeg c₀).getD 0 - 1))
            (if (alookup indeg c₀).getD 0 - 1 = 0 then queue ++ [c₀] else queue) cs := by
      unfold kahnStep
      rw [List.foldl_cons]
      by_cases hd : (alookup indeg c₀).getD 0 - 1 = 0 <;> simp [hd]
    have hcount_c₀ : (c₀ :: cs).count c₀ = cs.count c₀ + 1 := List.count_cons_self c₀ cs
    have hcount_ne : ∀ k, k ≠ c₀ → (c₀ :: cs).count k = cs.count k := by
      intro k hk
      exact List.count_cons_of_ne hk cs
    have H' : ∀ c ∈ cs, (cs.count c : Int)
        ≤ (alookup (aset indeg c₀ ((alookup indeg c₀).getD 0 - 1)) c).getD 0 := by
      intro c hc
      rw [alookup_aset]
      by_cases hcc : c₀ = c
      · subst hcc
        rw [if_pos rfl, Option.getD_some]
        have := H c₀ (List.mem_cons_self _ _)
        rw [hcount_c₀] at this
        push_cast at this ⊢
        omega
      · rw [if_neg hcc]
        have := H c (List.mem_cons_of_mem _ hc)
        rw [hcount_ne c (fun hh => hcc hh.symm)] at this
        exact this
    obtain ⟨hdeg, extra, hq, hnd, hmem⟩ :=
      ih (aset indeg c₀ ((alookup indeg c₀).getD 0 - 1))
        (if (alookup indeg c₀).getD 0 - 1 = 0 then queue ++ [c₀] else queue) H'
    have hH0 := H c₀ (List.mem_cons_self _ _)
    rw [hcount_c₀] at hH0
    refine ⟨?_, (if (alookup indeg c₀).getD 0 - 1 = 0 then [c₀] else []) ++ extra, ?_, ?_, ?_⟩
    · intro k
      rw [hstep, hdeg k, alookup_aset]
      by_cases hk : c₀ = k
      · subst hk
        rw [if_pos rfl, hcount_c₀]
        simp only [Option.getD_some]
        push_cast
        omega
      · rw [if_neg hk, hcount_ne k (fun hh => hk hh.symm)]
    · rw [hstep, hq]
      by_cases hd : (alookup indeg c₀).getD 0 - 1 = 0
      · rw [if_pos hd, if_pos hd, List.append_assoc]
      · rw [if_neg hd, if_neg hd, List.nil_append]
    · by_cases hd : (alookup indeg c₀).getD 0 - 1 = 0
      · rw [if_pos hd]
        have hc₀ : c₀ ∉ extra := by
          intro hin
          obtain ⟨hpos, heq⟩ := (hmem c₀).mp hin
          rw [alookup_aset, if_pos rfl] at heq
          simp only [Option.getD_some] at heq
          omega
        simp [List.nodup_cons, hc₀, hnd]
      · rw [if_neg hd, List.nil_append]
        exact hnd
    · intro k
      by_cases hk : k = c₀
      · subst hk
        rw [hcount_c₀]
        constructor
        · intro hin
          rcases List.mem_append.mp hin with h1 | h1
          · by_cases hd : (alookup indeg k).getD 0 - 1 = 0
            · refine ⟨by omega, ?_⟩
              have hcs0 : cs.count k = 0 := by
                push_cast at hH0
                omega
              rw [hcs0]
              push_cast
              omega
            · rw [if_neg hd] at h1
              simp at h1
          · obtain ⟨hpos, heq⟩ := (hmem k).mp h1
            rw [alookup_aset, if_pos rfl] at heq
            simp only [Option.getD_some] at heq
            refine ⟨by omega, ?_⟩
            push_cast at heq ⊢
            omega
        · rintro ⟨-, heq⟩
          by_cases hcs0 : cs.count k = 0
          · apply List.mem_append_left
            have hd : (alookup indeg k).getD 0 - 1 = 0 := by
              rw [hcs0] at heq
              push_cast at heq
              omega
            rw [if_pos hd]
            simp
          · apply List.mem_append_right
            apply (hmem k).mpr
            refine ⟨Nat.pos_of_ne_zero hcs0, ?_⟩
            rw [alookup_aset, if_pos rfl]
            simp only [Option.getD_some]
            push_cast at heq ⊢
            omega
      · rw [hcount_ne k hk]
        have hiff := hmem k
        rw [alookup_aset, if_neg (fun hh => hk hh.symm)] at hiff
        constructor
        · intro hin
          rcases List.mem_append.mp hin with h1 | h1
          · exfalso
            by_cases hd : (alookup indeg c₀).getD 0 - 1 = 0
            · rw [if_pos hd] at h1
              exact hk (by simpa using h1)
            · rw [if_neg hd] at h1
              simp at h1
          · exact hiff.mp h1
        · intro h
          exact List.mem_append_right _ (hiff.mpr h)

/-- Every parent reference names a key of the edge map ("closed" edge maps:
no external/implicit nodes). -/
def ClosedEM (em : EdgeMap) : Prop := ∀ e ∈ em, ∀ p ∈ e.2, p ∈ dictKeys em

theorem closed_get_parents {em : EdgeMap} (hclosed : ClosedEM em) :
    ∀ k p, p ∈ get_parents em k → p ∈ dictKeys em := by
  intro k p hp
  unfold get_parents at hp
  cases hl : alookup em k with
  | none => rw [hl] at hp; simp at hp
  | some ps =>
    rw [hl] at hp
    simp only [Option.getD_some] at hp
    exact hclosed (k, ps) (mem_of_alookup_eq_some hl) p hp

/-- Loop invariant of the Kahn main loop. -/
structure KahnInv (em : EdgeMap) (indeg : List (String × Int))
    (queue result : List String) : Prop where
  result_nodup : result.Nodup
  queue_nodup : queue.Nodup
  disj : ∀ k ∈ queue, k ∉ result
  queue_keys : ∀ k ∈ queue, k ∈ dictKeys em
  result_keys : ∀ k ∈ result, k ∈ dictKeys em
  deg : ∀ k ∈ dictKeys em, (alookup indeg k).getD 0 = (remDeg em result k : Int)
  queue_ready : ∀ k ∈ queue, ∀ p ∈ get_parents em k, p ∈ result
  complete : ∀ k ∈ dictKeys em, remDeg em result k = 0 → k ∈ result ∨ k ∈ queue
  ordered : ∀ r1 c r2, result = r1 ++ c :: r2 → ∀ p ∈ get_parents em c, p ∈ r1

theorem kahnInv_result_remDeg {em : EdgeMap} {indeg : List (String × Int)}
    {queue result : List String} (inv : KahnInv em indeg queue result) :
    ∀ k ∈ result, remDeg em result k = 0 := by
  intro k hk
  obtain ⟨r1, r2, hsplit⟩ := List.append_of_mem hk
  rw [remDeg_eq_zero_iff]
  intro p hp
  have hpr1 := inv.ordered r1 k r2 hsplit p hp
  rw [hsplit]
  exact List.mem_append_left _ hpr1

theorem snoc_eq_append_cons {α : Type} {l r1 r2 : List α} {c v : α}
    (h : l ++ [v] = r1 ++ c :: r2) :
    (r2 = [] ∧ c = v ∧ r1 = l) ∨ ∃ r2', r2 = r2' ++ [v] ∧ l = r1 ++ c :: r2' := by
  rcases List.eq_nil_or_concat r2 with h2 | ⟨r2', b, h2⟩
  · subst h2
    obtain ⟨hl, hv⟩ := List.append_inj' h (by simp)
    refine Or.inl ⟨rfl, ?_, hl.symm⟩
    have : v = c := by simpa using hv
    exact this.symm
  · subst h2
    have h' : l ++ [v] = (r1 ++ c :: r2') ++ [b] := by
      rw [h]
      simp
    obtain ⟨hl, hv⟩ := List.append_inj' h' (by simp)
    have hb : v = b := by simpa using hv
    subst hb
    exact Or.inr ⟨r2', List.concat_eq_append r2' v, hl⟩

/-- One iteration of the Kahn loop preserves the invariant. -/
theorem kahnInv_step {em : EdgeMap} (hnd : (dictKeys em).Nodup)
    {indeg : List (String × Int)} {queue result : List String}
    (inv : KahnInv em indeg queue result) (v : String) (rest : List String)
    (hq : queue = v :: rest) :
    KahnInv em (kahnStep indeg rest (get_children em v)).1
      (kahnStep indeg rest (get_children em v)).2 (result ++ [v]) := by
  subst hq
  have hvq : v ∈ v :: rest := List.mem_cons_self _ _
  have hvk : v ∈ dictKeys em := inv.queue_keys v hvq
  have hvnr : v ∉ result := inv.disj v hvq
  have hvrest : v ∉ rest := (List.nodup_cons.mp inv.queue_nodup).1
  have hrest_nd : rest.Nodup := (List.nodup_cons.mp inv.queue_nodup).2
  have hready : ∀ p ∈ get_parents em v, p ∈ result := inv.queue_ready v hvq
  have hcs_keys : ∀ c ∈ get_children em v, c ∈ dictKeys em :=
    fun c hc => mem_get_children_mem_keys hc
  have hcount_keys : ∀ k ∈ dictKeys em,
      (get_children em v).count k = (get_parents em k).count v := by
    intro k hk
    rw [count_get_children em hnd v k, if_pos hk]
  have hsnoc : ∀ k, remDeg em result k
      = remDeg em (result ++ [v]) k + (get_parents em k).count v :=
    fun k => remDeg_snoc em result v k hvnr
  have H : ∀ c ∈ get_children em v,
      ((get_children em v).count c : Int) ≤ (alookup indeg c).getD 0 := by
    intro c hc
    have hck := hcs_keys c hc
    rw [inv.deg c hck, hcount_keys c hck]
    exact_mod_cast count_le_countP_notmem (get_parents em c) v result hvnr
  obtain ⟨hdeg, extra, hq2, hexnd, hexmem⟩ := kahnStep_spec (get_children em v) indeg rest H
  have hexmem' : ∀ k, k ∈ extra ↔
      k ∈ dictKeys em ∧ v ∈ get_parents em k ∧ remDeg em (result ++ [v]) k = 0
        ∧ remDeg em result k ≠ 0 := by
    intro k
    rw [hexmem k]
    constructor
    · rintro ⟨hpos, heq⟩
      have hk : k ∈ dictKeys em := by
        by_contra hkn
        rw [count_get_children em hnd v k, if_neg hkn] at hpos
        omega
      have hc := hcount_keys k hk
      rw [inv.deg k hk] at heq
      have heqN : remDeg em result k = (get_children em v).count k := by exact_mod_cast heq
      rw [hc] at heqN hpos
      have hs := hsnoc k
      refine ⟨hk, List.count_pos_iff.mp hpos, by omega, by omega⟩
    · rintro ⟨hk, hvp, hzero, hnz⟩
      have hc := hcount_keys k hk
      have hs := hsnoc k
      have hcv : 0 < (get_parents em k).count v := List.count_pos_iff.mpr hvp
      refine ⟨by rw [hc]; omega, ?_⟩
      rw [inv.deg k hk, hc]
      have heqN : remDeg em result k = (get_parents em k).count v := by omega
      exact_mod_cast heqN
  refine
    { result_nodup := ?_
      queue_nodup := ?_
      disj := ?_
      queue_keys := ?_
      result_keys := ?_
      deg := ?_
      queue_ready := ?_
      complete := ?_
      ordered := ?_ }
  · rw [List.nodup_append]
    refine ⟨inv.result_nodup, List.nodup_singleton v, ?_⟩
    intro a ha hav
    rw [List.mem_singleton] at hav
    subst hav
    exact hvnr ha
  · rw [hq2, List.nodup_append]
    refine ⟨hrest_nd, hexnd, ?_⟩
    intro a ha hae
    obtain ⟨hk, hvp, hz, hnz⟩ := (hexmem' a).mp hae
    refine hnz ?_
    rw [remDeg_eq_zero_iff]
    exact inv.queue_ready a (List.mem_cons_of_mem _ ha)
  · intro k hk
    rw [hq2] at hk
    rw [List.mem_append, List.mem_singleton]
    push_neg
    rcases List.mem_append.mp hk with h1 | h1
    · exact ⟨inv.disj k (List.mem_cons_of_mem _ h1), fun hh => hvrest (hh ▸ h1)⟩
    · obtain ⟨hkk, hvp, hz, hnz⟩ := (hexmem' k).mp h1
      constructor
      · intro hkr
        exact hnz (kahnInv_result_remDeg inv k hkr)
      · intro hkv
        subst hkv
        refine hnz ?_
        rw [remDeg_eq_zero_iff]
        exact hready
  · intro k hk
    rw [hq2] at hk
    rcases List.mem_append.mp hk with h1 | h1
    · exact inv.queue_keys k (List.mem_cons_of_mem _ h1)
    · exact ((hexmem' k).mp h1).1
  · intro k hk
    rcases List.mem_append.mp hk with h1 | h1
    · exact inv.result_keys k h1
    · rw [List.mem_singleton] at h1
      subst h1
      exact hvk
  · intro k hk
    rw [hdeg k, inv.deg k hk, hcount_keys k hk]
    have hs := hsnoc k
    omega
  · intro k hk p hp
    rw [hq2] at hk
    rcases List.mem_append.mp hk with h1 | h1
    · exact List.mem_append_left _ (inv.queue_ready k (List.mem_cons_of_mem _ h1) p hp)
    · obtain ⟨hkk, hvp, hz, hnz⟩ := (hexmem' k).mp h1
      exact (remDeg_eq_zero_iff em (result ++ [v]) k).mp hz p hp
  · intro k hk hz
    by_cases hz0 : remDeg em result k = 0
    · rcases inv.complete k hk hz0 with h1 | h1
      · exact Or.inl (List.mem_append_left _ h1)
      · rcases List.mem_cons.mp h1 with h2 | h2
        · subst h2
          exact Or.inl (List.mem_append_right _ (List.mem_singleton.mpr rfl))
        · refine Or.inr ?_
          rw [hq2]
          exact List.mem_append_left _ h2
    · have hs := hsnoc k
      have hcv : 0 < (get_parents em k).count v := by omega
      refine Or.inr ?_
      rw [hq2]
      exact List.mem_append_right _
        ((hexmem' k).mpr ⟨hk, List.count_pos_iff.mp hcv, hz, hz0⟩)
  · intro r1 c r2 hsplit p hp
    rcases snoc_eq_append_cons hsplit with ⟨hr2, hcv, hr1⟩ | ⟨r2', hr2, hres⟩
    · subst hcv
      subst hr1
      exact hready p hp
    · exact inv.ordered r1 c r2' hres p hp

/-- Properties of the list the Kahn loop finally returns. -/
structure KahnFinal (em : EdgeMap) (R : List String) : Prop where
  nodup : R.Nodup
  keys : ∀ k ∈ R, k ∈ dictKeys em
  ordered : ∀ r1 c r2, R = r1 ++ c :: r2 → ∀ p ∈ get_parents em c, p ∈ r1
  complete : ∀ k ∈ dictKeys em, remDeg em R k = 0 → k ∈ R

theorem nodup_subset_length_le {l l' : List String} (hnd : l.Nodup)
    (hsub : ∀ x ∈ l, x ∈ l') : l.length ≤ l'.length := by
  calc l.length = l.toFinset.card := (List.toFinset_card_of_nodup hnd).symm
    _ ≤ l'.toFinset.card := Finset.card_le_card
        (fun x hx => List.mem_toFinset.mpr (hsub x (List.mem_toFinset.mp hx)))
    _ ≤ l'.length := l'.toFinset_card_le

/-- Running the loop with enough fuel extends the result monotonically and
ends in a state with an empty queue. -/
theorem kahnGo_spec (em : EdgeMap) (hnd : (dictKeys em).Nodup) :
    ∀ fuel indeg queue result, KahnInv em indeg queue result →
      em.length - result.length < fuel →
      result <+: kahnGo em fuel indeg queue result ∧
        KahnFinal em (kahnGo em fuel indeg queue result) := by
  intro fuel
  induction fuel with
  | zero =>
    intro indeg queue result inv hf
    omega
  | succ f ih =>
    intro indeg queue result inv hf
    cases queue with
    | nil =>
      refine ⟨List.prefix_rfl, ?_⟩
      exact
        { nodup := inv.result_nodup
          keys := inv.result_keys
          ordered := inv.ordered
          complete := fun k hk hz => (inv.complete k hk hz).resolve_right (by simp) }
    | cons v rest =>
      have inv' := kahnInv_step hnd inv v rest rfl
      have hsub : ∀ x ∈ result ++ [v], x ∈ dictKeys em := inv'.result_keys
      have hlen : (result ++ [v]).length ≤ em.length := by
        have h2 := nodup_subset_length_le inv'.result_nodup hsub
        simpa [dictKeys] using h2
      have hf' : em.length - (result ++ [v]).length < f := by
        rw [List.length_append, List.length_singleton] at hlen ⊢
        omega
      obtain ⟨hpre, hfin⟩ := ih (kahnStep indeg rest (get_children em v)).1
        (kahnStep indeg rest (get_children em v)).2 (result ++ [v]) inv' hf'
      exact ⟨(List.prefix_append result [v]).trans hpre, hfin⟩

theorem alookup_map_val {β : Type} (em : EdgeMap) (g : List String → β) (k : String) :
    alookup (em.map (fun e => (e.1, g e.2))) k = (alookup em k).map g := by
  induction em with
  | nil => simp [alookup_nil]
  | cons e tl ih =>
    obtain ⟨k', ps⟩ := e
    rw [List.map_cons, alookup_cons, alookup_cons]
    by_cases h : k' = k
    · simp [h]
    · simp [h, ih]

/-- The initial state of `topological_sort` satisfies the invariant. -/
theorem kahnInv_init (em : EdgeMap) (hnd : (dictKeys em).Nodup) :
    KahnInv em (initIndeg em) (initQueue em) [] := by
  have hkeys_eq : dictKeys (initIndeg em) = dictKeys em := by
    simp [dictKeys, initIndeg, List.map_map, Function.comp]
  have hqueue_sub : List.Sublist (initQueue em) (dictKeys em) := by
    rw [← hkeys_eq]
    exact ((initIndeg em).filter_sublist).map Prod.fst
  refine
    { result_nodup := List.nodup_nil
      queue_nodup := hqueue_sub.nodup (hkeys_eq ▸ hnd)
      disj := fun k _ h => (List.not_mem_nil k) h
      queue_keys := fun k hk => hqueue_sub.subset hk
      result_keys := fun k hk => absurd hk (List.not_mem_nil k)
      deg := ?_
      queue_ready := ?_
      complete := ?_
      ordered := ?_ }
  · intro k hk
    rw [remDeg_nil]
    show (alookup (em.map (fun e => (e.1, (e.2.length : Int)))) k).getD 0 = _
    rw [alookup_map_val em (fun ps => (ps.length : Int)) k]
    obtain ⟨⟨k', ps⟩, hmem, hkk⟩ := List.mem_map.mp hk
    cases hkk
    rw [alookup_of_mem_nodup hnd hmem]
    simp [get_parents, alookup_of_mem_nodup hnd hmem]
  · intro k hk p hp
    obtain ⟨⟨k', d⟩, hmemf, hkk⟩ := List.mem_map.mp hk
    cases hkk
    have hmem := List.mem_of_mem_filter hmemf
    have hcond := List.of_mem_filter hmemf
    simp only [decide_eq_true_eq] at hcond
    obtain ⟨⟨k'', ps⟩, hmem2, hkk2⟩ := List.mem_map.mp hmem
    obtain ⟨h1, h2⟩ := Prod.mk.injEq .. ▸ hkk2
    subst h1
    have hps : ps.length = 0 := by exact_mod_cast h2 ▸ hcond
    have hps0 : ps = [] := List.length_eq_zero.mp hps
    subst hps0
    rw [get_parents, alookup_of_mem_nodup hnd hmem2] at hp
    simp at hp
  · intro k hk hz
    refine Or.inr ?_
    rw [remDeg_nil] at hz
    obtain ⟨⟨k', ps⟩, hmem, hkk⟩ := List.mem_map.mp hk
    cases hkk
    have hps : get_parents em k' = ps := by
      simp [get_parents, alookup_of_mem_nodup hnd hmem]
    rw [hps] at hz
    have hps0 : ps = [] := List.length_eq_zero.mp hz
    subst hps0
    refine List.mem_map.mpr ⟨(k', (0 : Int)), ?_, rfl⟩
    refine List.mem_filter.mpr ⟨?_, by simp⟩
    exact List.mem_map.mpr ⟨(k', []), hmem, by simp⟩
  · intro r1 c r2 h
    exfalso
    have := congrArg List.length h
    simp at this
    omega

/-- The graph has no directed cycle along parent edges. -/
def Acyclic (em : EdgeMap) : Prop :=
  ∀ n k, 0 < k → ¬ ReachN (get_parents em) k n n

theorem kahnRun_final (em : EdgeMap) (hnd : (dictKeys em).Nodup) :
    KahnFinal em (kahnRun em) :=
  (kahnGo_spec em hnd (em.length + 1) (initIndeg em) (initQueue em) []
    (kahnInv_init em hnd) (by simp)).2

/-- An ordered output never contains a node that lies on a cycle. -/
theorem ordered_no_cycle {em : EdgeMap} {R : List String}
    (hord : ∀ r1 c r2, R = r1 ++ c :: r2 → ∀ p ∈ get_parents em c, p ∈ r1) :
    ∀ n, ∀ r1 c r2, R = r1 ++ c :: r2 → r1.length = n → ∀ k, 0 < k →
      ¬ ReachN (get_parents em) k c c := by
  intro n
  induction n using Nat.strong_induction_on with
  | _ n ihn =>
    intro r1 c r2 hsplit hlen k hk hr
    obtain ⟨k', rfl⟩ : ∃ k', k = k' + 1 := ⟨k - 1, by omega⟩
    obtain ⟨p, hp, hrest⟩ := hr
    have hpr1 : p ∈ r1 := hord r1 c r2 hsplit p hp
    obtain ⟨a, b, hab⟩ := List.append_of_mem hpr1
    have hsplit' : R = a ++ p :: (b ++ c :: r2) := by
      rw [hsplit, hab]
      simp
    have hcycle : ReachN (get_parents em) (k' + 1) p p := by
      rw [reachN_add _ k' 1]
      exact ⟨c, hrest, ⟨p, hp, rfl⟩⟩
    have halen : a.length < n := by
      have : r1.length = a.length + (b.length + 1) := by
        rw [hab]
        simp
      omega
    exact ihn a.length halen a p (b ++ c :: r2) hsplit' rfl (k' + 1) (Nat.succ_pos _) hcycle

theorem kahnFinal_no_cycle {em : EdgeMap} {R : List String} (hfin : KahnFinal em R) :
    ∀ c ∈ R, ∀ k, 0 < k → ¬ ReachN (get_parents em) k c c := by
  intro c hc k hk
  obtain ⟨r1, r2, hsplit⟩ := List.append_of_mem hc
  exact ordered_no_cycle hfin.ordered r1.length r1 c r2 hsplit rfl k hk

/-- On a closed acyclic edge map the loop emits every key (pigeonhole on the
"blocked" nodes: a node missing from the output has a missing parent, and
following such parents within the finite key set must close a cycle). -/
theorem kahnRun_perm (em : EdgeMap) (hnd : (dictKeys em).Nodup) (hclosed : ClosedEM em)
    (hacyc : Acyclic em) : (kahnRun em).Perm (dictKeys em) := by
  have hfin := kahnRun_final em hnd
  have hsub : ∀ k ∈ dictKeys em, k ∈ kahnRun em := by
    intro k₀ hk₀
    by_contra hk₀R
    have hstep : ∀ x, x ∈ dictKeys em → x ∉ kahnRun em →
        ((get_parents em x).find? (fun p => decide (p ∉ kahnRun em))).getD x
            ∈ get_parents em x ∧
        ((get_parents em x).find? (fun p => decide (p ∉ kahnRun em))).getD x
            ∉ kahnRun em := by
      intro x hx hxR
      cases hfind : (get_parents em x).find? (fun p => decide (p ∉ kahnRun em)) with
      | none =>
        exfalso
        have hall := List.find?_eq_none.mp hfind
        have hz : remDeg em (kahnRun em) x = 0 := by
          rw [remDeg_eq_zero_iff]
          intro p hp
          have := hall p hp
          simpa using this
        exact hxR (hfin.complete x hx hz)
      | some p =>
        have h1 := List.find?_some hfind
        have h2 := List.mem_of_find?_eq_some hfind
        simp only [decide_eq_true_eq] at h1
        exact ⟨h2, h1⟩
    set g : String → String :=
      fun x => ((get_parents em x).find? (fun p => decide (p ∉ kahnRun em))).getD x with hg
    have hiter : ∀ i, g^[i] k₀ ∈ dictKeys em ∧ g^[i] k₀ ∉ kahnRun em := by
      intro i
      induction i with
      | zero => exact ⟨hk₀, hk₀R⟩
      | succ i ihi =>
        rw [Function.iterate_succ_apply']
        obtain ⟨hmem, hnr⟩ := hstep _ ihi.1 ihi.2
        exact ⟨closed_get_parents hclosed _ _ hmem, hnr⟩
    have hreach : ∀ m i, ReachN (get_parents em) m (g^[i] k₀) (g^[i + m] k₀) := by
      intro m
      induction m with
      | zero =>
        intro i
        rw [Nat.add_zero]
        rfl
      | succ m ihm =>
        intro i
        refine ⟨g^[i + 1] k₀, ?_, ?_⟩
        · rw [Function.iterate_succ_apply']
          exact (hstep _ (hiter i).1 (hiter i).2).1
        · have h := ihm (i + 1)
          have heq : i + 1 + m = i + (m + 1) := by omega
          rw [heq] at h
          exact h
    have hcard : (dictKeys em).toFinset.card
        < (Finset.range ((dictKeys em).length + 1)).card := by
      rw [Finset.card_range, List.toFinset_card_of_nodup hnd]
      omega
    obtain ⟨i, hi, j, hj, hij, hfeq⟩ :=
      Finset.exists_ne_map_eq_of_card_lt_of_maps_to hcard
        (fun i _ => List.mem_toFinset.mpr (hiter i).1)
    rcases Nat.lt_or_ge i j with hlt | hge
    · refine hacyc (g^[i] k₀) (j - i) (by omega) ?_
      have h := hreach (j - i) i
      rw [show i + (j - i) = j by omega] at h
      rw [← hfeq] at h
      exact h
    · have hlt' : j < i := by
        rcases Nat.lt_or_ge j i with h | h
        · exact h
        · exact absurd (Nat.le_antisymm h hge) hij
      refine hacyc (g^[j] k₀) (i - j) (by omega) ?_
      have h := hreach (i - j) j
      rw [show j + (i - j) = i by omega] at h
      rw [hfeq] at h
      exact h
  apply List.perm_of_nodup_nodup_toFinset_eq hfin.nodup hnd
  apply Finset.ext
  intro x
  simp only [List.mem_toFinset]
  exact ⟨fun hx => hfin.keys x hx, fun hx => hsub x hx⟩

theorem kahnRun_le_length (em : EdgeMap) (hnd : (dictKeys em).Nodup) :
    (kahnRun em).length ≤ em.length := by
  have hfin := kahnRun_final em hnd
  have h := nodup_subset_length_le hfin.nodup hfin.keys
  simpa [dictKeys] using h

/-- Acyclic, closed case: the sort succeeds with the Kahn output. -/
theorem topological_sort_acyclic (em : EdgeMap) (hnd : (dictKeys em).Nodup)
    (hclosed : ClosedEM em) (hacyc : Acyclic em) :
    topological_sort em = Except.ok (kahnRun em) ∧ (kahnRun em).Perm (dictKeys em) := by
  have hperm := kahnRun_perm em hnd hclosed hacyc
  have hlen : (kahnRun em).length = em.length := by
    have h := hperm.length_eq
    simpa [dictKeys] using h
  unfold topological_sort
  rw [if_neg (by omega)]
  exact ⟨rfl, hperm⟩

/-- Any cycle forces the error branch: cycle members never enter the output. -/
theorem topological_sort_cycle (em : EdgeMap) (hnd : (dictKeys em).Nodup)
    {n : String} {k : Nat} (hk : 0 < k) (hcyc : ReachN (get_parents em) k n n) :
    topological_sort em = Except.error cycleMsg := by
  have hfin := kahnRun_final em hnd
  obtain ⟨k', rfl⟩ : ∃ k', k = k' + 1 := ⟨k - 1, by omega⟩
  have hcyc2 := hcyc
  obtain ⟨p, hp, -⟩ := hcyc2
  have hn_keys : n ∈ dictKeys em := by
    cases halo : alookup em n with
    | none =>
      rw [get_parents, halo] at hp
      simp at hp
    | some ps =>
      rw [← alookup_isSome_iff_mem_keys, halo]
      rfl
  have hnR : n ∉ kahnRun em := fun hmem =>
    kahnFinal_no_cycle hfin n hmem (k' + 1) (Nat.succ_pos _) hcyc
  have hlt : (kahnRun em).length < em.length := by
    have hsubF : (kahnRun em).toFinset ⊆ (dictKeys em).toFinset := by
      intro x hx
      exact List.mem_toFinset.mpr (hfin.keys x (List.mem_toFinset.mp hx))
    have h1 : (kahnRun em).toFinset.card < (dictKeys em).toFinset.card := by
      apply Finset.card_lt_card
      rw [Finset.ssubset_iff_of_subset hsubF]
      exact ⟨n, List.mem_toFinset.mpr hn_keys, fun hmem => hnR (List.mem_toFinset.mp hmem)⟩
    rw [List.toFinset_card_of_nodup hfin.nodup, List.toFinset_card_of_nodup hnd] at h1
    simpa [dictKeys] using h1
  unfold topological_sort
  rw [if_pos (by omega)]

/-- The error branch is taken exactly when the Kahn output is shorter than
the node count. -/
theorem topological_sort_error_iff (em : EdgeMap) (hnd : (dictKeys em).Nodup) :
    (∃ msg, topological_sort em = Except.error msg) ↔ (kahnRun em).length < em.length := by
  have hle := kahnRun_le_length em hnd
  unfold topological_sort
  by_cases h : (kahnRun em).length ≠ em.length
  · rw [if_pos h]
    exact ⟨fun _ => by omega, fun _ => ⟨cycleMsg, rfl⟩⟩
  · rw [if_neg h]
    constructor
    · rintro ⟨msg, hmsg⟩
      simp at hmsg
    · intro hlt
      omega

example : topological_sort [("A", []), ("B", ["A"]), ("C", ["A"]), ("D", ["B", "C"])]
    = Except.ok ["A", "B", "C", "D"] := rfl

example : topological_sort [("B", ["A"])] = Except.error cycleMsg := rfl

example : topological_sort [("A", ["B"]), ("B", ["A"])] = Except.error cycleMsg := rfl

/- ------------------------------------------------------------------
   Adding an edge (the operation quantified over by the
   wouldCreateCycle/topologicalSort relationship): append `source` to
   `target`'s parent list.
   ------------------------------------------------------------------ -/

/-- Append `source` to `target`'s parent list (for `target` a key). -/
def add_edge (em : EdgeMap) (source target : String) : EdgeMap :=
  em.map (fun e => if e.1 = target then (e.1, e.2 ++ [source]) else e)

theorem add_edge_alookup (em : EdgeMap) (s t k : String) :
    alookup (add_edge em s t) k
      = (alookup em k).map (fun ps => if k = t then ps ++ [s] else ps) := by
  induction em with
  | nil => simp [add_edge, alookup_nil]
  | cons e tl ih =>
    obtain ⟨k', ps⟩ := e
    show alookup ((if k' = t then (k', ps ++ [s]) else (k', ps)) :: add_edge tl s t) k = _
    by_cases hkt : k' = t
    · rw [if_pos hkt, alookup_cons, alookup_cons]
      by_cases hk : k' = k
      · subst hk
        rw [if_pos rfl, if_pos rfl]
        simp [hkt]
      · rw [if_neg hk, if_neg hk]
        exact ih
    · rw [if_neg hkt, alookup_cons, alookup_cons]
      by_cases hk : k' = k
      · subst hk
        rw [if_pos rfl, if_pos rfl]
        simp [hkt]
      · rw [if_neg hk, if_neg hk]
        exact ih

theorem add_edge_keys (em : EdgeMap) (s t : String) :
    dictKeys (add_edge em s t) = dictKeys em := by
  unfold dictKeys add_edge
  rw [List.map_map]
  apply List.map_congr_left
  intro e _
  by_cases h : e.1 = t <;> simp [h, Function.comp]

theorem add_edge_mem_parents (em : EdgeMap) (s t k p : String) :
    p ∈ get_parents (add_edge em s t) k ↔
      p ∈ get_parents em k ∨ (k = t ∧ k ∈ dictKeys em ∧ p = s) := by
  unfold get_parents
  rw [add_edge_alookup]
  cases halo : alookup em k with
  | none =>
    have hk : k ∉ dictKeys em := by
      rw [← alookup_isSome_iff_mem_keys, halo]
      simp
    simp [hk]
  | some ps =>
    have hk : k ∈ dictKeys em := by
      rw [← alookup_isSome_iff_mem_keys, halo]
      rfl
    by_cases hkt : k = t
    · subst hkt
      simp [hk]
    · simp [hkt]

theorem add_edge_closed {em : EdgeMap} (hclosed : ClosedEM em) {s t : String}
    (hs : s ∈ dictKeys em) : ClosedEM (add_edge em s t) := by
  intro e he p hp
  rw [add_edge_keys]
  unfold add_edge at he
  obtain ⟨e₀, he₀, hfe⟩ := List.mem_map.mp he
  obtain ⟨k₀, ps₀⟩ := e₀
  by_cases h : k₀ = t
  · rw [if_pos h] at hfe
    subst hfe
    rcases List.mem_append.mp hp with h1 | h1
    · exact hclosed (k₀, ps₀) he₀ p h1
    · rw [List.mem_singleton] at h1
      subst h1
      exact hs
  · rw [if_neg h] at hfe
    subst hfe
    exact hclosed (k₀, ps₀) he₀ p hp

/-- Decomposition of a walk in the extended graph: either it exists in the
original graph, or it passes through the new edge, splitting into a walk to
`target` and a walk from `source`. -/
theorem add_edge_reach_split (em : EdgeMap) (s t : String) :
    ∀ k x y, ReachN (get_parents (add_edge em s t)) k x y →
      (∃ m, ReachN (get_parents em) m x y) ∨
      ((∃ m, ReachN (get_parents em) m x t) ∧ ∃ m, ReachN (get_parents em) m s y) := by
  intro k
  induction k with
  | zero =>
    intro x y h
    exact Or.inl ⟨0, h⟩
  | succ k ih =>
    intro x y h
    obtain ⟨p, hp, hrest⟩ := h
    rcases (add_edge_mem_parents em s t x p).mp hp with hpe | ⟨hxt, -, hps⟩
    · rcases ih p y hrest with ⟨m, hm⟩ | ⟨⟨m1, hm1⟩, hm2⟩
      · exact Or.inl ⟨m + 1, p, hpe, hm⟩
      · exact Or.inr ⟨⟨m1 + 1, p, hpe, hm1⟩, hm2⟩
    · subst hxt
      subst hps
      rcases ih p y hrest with ⟨m, hm⟩ | ⟨-, hm2⟩
      · exact Or.inr ⟨⟨0, rfl⟩, m, hm⟩
      · exact Or.inr ⟨⟨0, rfl⟩, hm2⟩

/-- Adding `source → target` to an acyclic graph creates a cycle exactly when
`source` already reaches `target` through parent edges (zero steps = the
self-loop case). -/
theorem add_edge_cycle_iff (em : EdgeMap) (hacyc : Acyclic em)
    (s t : String) (ht : t ∈ dictKeys em) :
    (∃ n k, 0 < k ∧ ReachN (get_parents (add_edge em s t)) k n n) ↔
      ∃ m, ReachN (get_parents em) m s t := by
  constructor
  · rintro ⟨n, k, hk, hcyc⟩
    obtain ⟨k', rfl⟩ : ∃ k', k = k' + 1 := ⟨k - 1, by omega⟩
    obtain ⟨p, hp, hrest⟩ := hcyc
    rcases (add_edge_mem_parents em s t n p).mp hp with hpe | ⟨hnt, -, hps⟩
    · rcases add_edge_reach_split em s t k' p n hrest with ⟨m, hm⟩ | ⟨⟨m1, hm1⟩, m2, hm2⟩
      · exfalso
        exact hacyc n (1 + m) (by omega) ((reachN_add _ 1 m n n).mpr ⟨p, ⟨p, hpe, rfl⟩, hm⟩)
      · refine ⟨m2 + (1 + m1), ?_⟩
        rw [reachN_add]
        refine ⟨n, hm2, ?_⟩
        rw [reachN_add]
        exact ⟨p, ⟨p, hpe, rfl⟩, hm1⟩
    · rw [hps, hnt] at hrest
      rcases add_edge_reach_split em s t k' s t hrest with ⟨m, hm⟩ | ⟨⟨m1, hm1⟩, -⟩
      · exact ⟨m, hm⟩
      · exact ⟨m1, hm1⟩
  · rintro ⟨m, hm⟩
    have hmono : ∀ j x y, ReachN (get_parents em) j x y →
        ReachN (get_parents (add_edge em s t)) j x y := by
      intro j
      induction j with
      | zero => intro x y h; exact h
      | succ j ihj =>
        intro x y h
        obtain ⟨p, hp, hrest⟩ := h
        exact ⟨p, (add_edge_mem_parents em s t x p).mpr (Or.inl hp), ihj p y hrest⟩
    refine ⟨t, 1 + m, by omega, ?_⟩
    rw [reachN_add]
    refine ⟨s, ⟨s, ?_, rfl⟩, hmono m s t hm⟩
    exact (add_edge_mem_parents em s t t s).mpr (Or.inr ⟨rfl, ht, rfl⟩)

/- ------------------------------------------------------------------
   topology_validator.py: quick_validate and compare_topologies.
   ------------------------------------------------------------------ -/

/-- The distinct `ValueError` reasons of `quick_validate`. -/
inductive ValidationError : Type
  | danglingEdgeReference (name : String)
  | selfLoop (name : String)
  | duplicateEdge (source target : String)
deriving DecidableEq

/-- The per-edge checks of `quick_validate`, in the code's order: dangling
source, dangling target, self-loop, duplicate against the edges seen so far. -/
def edgeViolation (nodeIds : List String) (seen : List (String × String))
    (e : String × String) : Option ValidationError :=
  if e.1 ∉ nodeIds then some (ValidationError.danglingEdgeReference e.1)
  else if e.2 ∉ nodeIds then some (ValidationError.danglingEdgeReference e.2)
  else if e.1 = e.2 then some (ValidationError.selfLoop e.1)
  else if e ∈ seen then some (ValidationError.duplicateEdge e.1 e.2)
  else none

/-- The edge scan of `quick_validate`, threading the `seen_edges` set. -/
def quickGo (nodeIds : List String) :
    List (String × String) → List (String × String) → Except ValidationError Bool
  | _, [] => Except.ok true
  | seen, e :: rest =>
    match edgeViolation nodeIds seen e with
    | some err => Except.error err
    | none => quickGo nodeIds (seen ++ [e]) rest

/-- `quick_validate(causeway_json)`: scan edges in input order, failing on the
first violation, else return `True`.  The node payloads beyond ids are opaque,
so the input is the node-id list plus the (source, target) edge list. -/
def quick_validate (nodeIds : List String) (edges : List (String × String)) :
    Except ValidationError Bool :=
  quickGo nodeIds [] edges

theorem edgeViolation_none_iff (nodeIds : List String) (seen : List (String × String))
    (e : String × String) :
    edgeViolation nodeIds seen e = none ↔
      e.1 ∈ nodeIds ∧ e.2 ∈ nodeIds ∧ e.1 ≠ e.2 ∧ e ∉ seen := by
  unfold edgeViolation
  split_ifs <;> simp_all

theorem quickGo_ok_iff (nodeIds : List String) :
    ∀ (es seen : List (String × String)),
      quickGo nodeIds seen es = Except.ok true ↔
        ((∀ e ∈ es, e.1 ∈ nodeIds ∧ e.2 ∈ nodeIds ∧ e.1 ≠ e.2) ∧ es.Nodup ∧
          ∀ e ∈ es, e ∉ seen) := by
  intro es
  induction es with
  | nil =>
    intro seen
    simp [quickGo]
  | cons e rest ih =>
    intro seen
    cases hv : edgeViolation nodeIds seen e with
    | some err =>
      simp only [quickGo, hv]
      constructor
      · intro h
        exact absurd h (by simp)
      · rintro ⟨hconds, hnd, hns⟩
        exfalso
        have hnone : edgeViolation nodeIds seen e = none := by
          rw [edgeViolation_none_iff]
          obtain ⟨h1, h2, h3⟩ := hconds e (List.mem_cons_self _ _)
          exact ⟨h1, h2, h3, hns e (List.mem_cons_self _ _)⟩
        rw [hv] at hnone
        cases hnone
    | none =>
      simp only [quickGo, hv]
      rw [ih (seen ++ [e])]
      have hcond := (edgeViolation_none_iff nodeIds seen e).mp hv
      constructor
      · rintro ⟨hconds, hnd, hns⟩
        refine ⟨?_, ?_, ?_⟩
        · intro e' he'
          rcases List.mem_cons.mp he' with h | h
          · subst h
            exact ⟨hcond.1, hcond.2.1, hcond.2.2.1⟩
          · exact hconds e' h
        · rw [List.nodup_cons]
          refine ⟨?_, hnd⟩
          intro hmem
          exact hns e hmem (List.mem_append_right _ (List.mem_singleton.mpr rfl))
        · intro e' he' hmem
          rcases List.mem_cons.mp he' with h | h
          · subst h
            exact hcond.2.2.2 hmem
          · exact hns e' h (List.mem_append_left _ hmem)
      · rintro ⟨hconds, hnd, hns⟩
        refine ⟨fun e' he' => hconds e' (List.mem_cons_of_mem _ he'),
          (List.nodup_cons.mp hnd).2, ?_⟩
        intro e' he' hmem
        rcases List.mem_append.mp hmem with h | h
        · exact hns e' (List.mem_cons_of_mem _ he') h
        · rw [List.mem_singleton] at h
          subst h
          exact (List.nodup_cons.mp hnd).1 he'

theorem quickGo_append (nodeIds : List String) :
    ∀ (pre rest seen : List (String × String)),
      quickGo nodeIds seen pre = Except.ok true →
      quickGo nodeIds seen (pre ++ rest) = quickGo nodeIds (seen ++ pre) rest := by
  intro pre
  induction pre with
  | nil =>
    intro rest seen _
    simp
  | cons p pre ih =>
    intro rest seen hok
    cases hv : edgeViolation nodeIds seen p with
    | some err =>
      simp only [quickGo, hv] at hok
      cases hok
    | none =>
      simp only [quickGo, hv] at hok
      show (match edgeViolation nodeIds seen p with
        | some err => Except.error err
        | none => quickGo nodeIds (seen ++ [p]) (pre ++ rest)) = _
      rw [hv]
      rw [ih rest (seen ++ [p]) hok]
      rw [List.append_assoc, List.singleton_append]

/-- The `TopologyReport` record of topology_validator.py. -/
structure TopologyReport (α : Type) where
  is_valid : Bool
  node_count_match : Bool
  edge_count_match : Bool
  missing_nodes_in_a : Finset α
  missing_nodes_in_b : Finset α
  missing_edges_in_a : Finset (α × α)
  missing_edges_in_b : Finset (α × α)

/-- `compare_topologies(nodes_a, edges_a, nodes_b, edges_b)`: the four set
differences, the validity flag, and the auxiliary count-match flags. -/
def compare_topologies {α : Type} [DecidableEq α]
    (nodes_a : Finset α) (edges_a : Finset (α × α))
    (nodes_b : Finset α) (edges_b : Finset (α × α)) : TopologyReport α :=
  { is_valid := decide ((nodes_b \ nodes_a).card = 0 ∧ (nodes_a \ nodes_b).card = 0 ∧
      (edges_b \ edges_a).card = 0 ∧ (edges_a \ edges_b).card = 0)
    node_count_match := decide (nodes_a.card = nodes_b.card)
    edge_count_match := decide (edges_a.card = edges_b.card)
    missing_nodes_in_a := nodes_b \ nodes_a
    missing_nodes_in_b := nodes_a \ nodes_b
    missing_edges_in_a := edges_b \ edges_a
    missing_edges_in_b := edges_a \ edges_b }

theorem compare_topologies_is_valid_iff {α : Type} [DecidableEq α]
    (na nb : Finset α) (ea eb : Finset (α × α)) :
    (compare_topologies na ea nb eb).is_valid = true ↔ (na = nb ∧ ea = eb) := by
  unfold compare_topologies
  simp only [decide_eq_true_eq, Finset.card_eq_zero, Finset.sdiff_eq_empty_iff_subset]
  constructor
  · rintro ⟨h1, h2, h3, h4⟩
    exact ⟨Finset.Subset.antisymm h2 h1, Finset.Subset.antisymm h4 h3⟩
  · rintro ⟨h1, h2⟩
    subst h1
    subst h2
    exact ⟨Finset.Subset.refl _, Finset.Subset.refl _, Finset.Subset.refl _,
      Finset.Subset.refl _⟩

/- ------------------------------------------------------------------
   Helpers for concrete witnesses.
   ------------------------------------------------------------------ -/

theorem get_parents_eq_nil_of_not_key {em : EdgeMap} {x : String}
    (hx : x ∉ dictKeys em) : get_parents em x = [] := by
  unfold get_parents
  rw [alookup_eq_none_of_not_mem_keys hx]
  rfl

/-- A rank function decreasing along parent edges certifies acyclicity. -/
theorem acyclic_of_rank (em : EdgeMap) (rank : String → Nat)
    (hrank : ∀ x p, p ∈ get_parents em x → rank p < rank x) : Acyclic em := by
  have hmain : ∀ k x y, ReachN (get_parents em) k x y → 0 < k → rank y < rank x := by
    intro k
    induction k with
    | zero =>
      intro x y _ h
      omega
    | succ k ihk =>
      intro x y hr _
      obtain ⟨p, hp, hrest⟩ := hr
      have h1 := hrank x p hp
      rcases Nat.eq_zero_or_pos k with h0 | hpos
      · subst h0
        rw [reachN_zero] at hrest
        subst hrest
        exact h1
      · exact Nat.lt_trans (ihk p y hrest hpos) h1
  intro n k hk hr
  exact absurd (hmain k n n hr hk) (by omega)

/-- The witness graph {A: [], B: [A]} is acyclic. -/
theorem twoChainAcyclic : Acyclic [("A", []), ("B", ["A"])] := by
  apply acyclic_of_rank _ (fun x => if x = "B" then 1 else 0)
  intro x p hp
  by_cases hxB : x = "B"
  · subst hxB
    have hps : get_parents [("A", []), ("B", ["A"])] "B" = ["A"] := rfl
    rw [hps] at hp
    have hpA : p = "A" := by simpa using hp
    subst hpA
    simp
  · by_cases hxA : x = "A"
    · subst hxA
      have hps : get_parents [("A", []), ("B", ["A"])] "A" = [] := rfl
      rw [hps] at hp
      exact absurd hp (List.not_mem_nil p)
    · rw [get_parents_eq_nil_of_not_key (by simp [dictKeys, hxA, hxB])] at hp
      exact absurd hp (List.not_mem_nil p)

theorem flatMap_nil_of_components {α β : Type} (l : List α) (f : α → List β)
    (h : ∀ x ∈ l, f x = []) : l.flatMap f = [] := by
  induction l with
  | nil => rfl
  | cons a l ih =>
    rw [List.flatMap_cons, h a (List.mem_cons_self _ _), List.nil_append]
    exact ih (fun x hx => h x (List.mem_cons_of_mem _ hx))

/- ------------------------------------------------------------------
   get_ancestors_with_degree / get_descendants_with_degree
   (whyzen_graph_utils.py): BFS recording each node once at the degree
   of first discovery, then a stable sort by degree.  The `node` object
   payload of NodeWithDegree comes from model introspection (outside
   the core), so entries are modelled as (name, degree) pairs.
   ------------------------------------------------------------------ -/

/-- Inner loop of one BFS iteration: mark each unvisited neighbour at
`degree + 1` and enqueue it (the visited dict and the queue receive the same
appends, in the same order). -/
def bfsStep (visited queue : List (String × Nat)) (parents : List String)
    (degree : Nat) : List (String × Nat) × List (String × Nat) :=
  parents.foldl
    (fun st p =>
      if p ∈ dictKeys st.1 then st
      else (st.1 ++ [(p, degree + 1)], st.2 ++ [(p, degree + 1)]))
    (visited, queue)

/-- The BFS while loop: pop (node, degree), process its neighbours. -/
def bfsGo (adj : String → List String) :
    Nat → List (String × Nat) → List (String × Nat) → List (String × Nat)
  | 0, visited, _ => visited
  | fuel + 1, visited, queue =>
    match queue with
    | [] => visited
    | (current, degree) :: rest =>
      bfsGo adj fuel (bfsStep visited rest (adj current) degree).1
        (bfsStep visited rest (adj current) degree).2

/-- The visited dict produced by the BFS started at `(n, 0)`. -/
def bfsVisited (adj : String → List String) (fuel : Nat) (n : String) :
    List (String × Nat) :=
  bfsGo adj fuel [] [(n, 0)]

/-- Stable insertion by degree: an element passes entries of strictly smaller
degree and lands before the first entry of equal or larger degree. -/
def insertByDegree (x : String × Nat) : List (String × Nat) → List (String × Nat)
  | [] => [x]
  | y :: ys => if y.2 < x.2 then y :: insertByDegree x ys else x :: y :: ys

/-- Stable sort by degree (Python's `sorted(..., key=degree)` contract). -/
def sortByDegree : List (String × Nat) → List (String × Nat)
  | [] => []
  | x :: xs => insertByDegree x (sortByDegree xs)

/-- `get_ancestors_with_degree(node)`: BFS over parent edges, result sorted
ascending by degree. -/
def get_ancestors_with_degree (em : EdgeMap) (node : String) :
    List (String × Nat) :=
  sortByDegree (bfsVisited (get_parents em) ((em.flatMap Prod.snd).length + 2) node)

/-- `get_descendants_with_degree(node)`: symmetric BFS over the children
index. -/
def get_descendants_with_degree (em : EdgeMap) (node : String) :
    List (String × Nat) :=
  sortByDegree (bfsVisited (get_children em) (em.length + 2) node)

/-- A stable by-degree sort leaves an already degree-sorted list unchanged. -/
theorem sortByDegree_eq_self :
    ∀ l : List (String × Nat),
      List.Pairwise (fun a b => a.2 ≤ b.2) l → sortByDegree l = l := by
  intro l
  induction l with
  | nil => intro _; rfl
  | cons x xs ih =>
    intro h
    obtain ⟨hx, hxs⟩ := List.pairwise_cons.mp h
    rw [sortByDegree, ih hxs]
    cases xs with
    | nil => rfl
    | cons y ys =>
      have hle : ¬ (y.2 < x.2) := by
        have := hx y (List.mem_cons_self _ _)
        omega
      simp only [insertByDegree, hle, if_false]

theorem nodup_keys_eq {V : List (String × Nat)} (hnd : (dictKeys V).Nodup)
    {x : String} {d1 d2 : Nat} (h1 : (x, d1) ∈ V) (h2 : (x, d2) ∈ V) :
    d1 = d2 := by
  induction V with
  | nil => simp at h1
  | cons e tl ih =>
    simp only [dictKeys, List.map_cons, List.nodup_cons] at hnd
    rcases List.mem_cons.mp h1 with ha | ha
    · rcases List.mem_cons.mp h2 with hb | hb
      · rw [← hb] at ha
        exact congrArg Prod.snd ha
      · exfalso
        apply hnd.1
        rw [← ha]
        exact List.mem_map.mpr ⟨(x, d2), hb, rfl⟩
    · rcases List.mem_cons.mp h2 with hb | hb
      · exfalso
        apply hnd.1
        rw [← hb]
        exact List.mem_map.mpr ⟨(x, d1), ha, rfl⟩
      · exact ih hnd.2 ha hb

theorem mem_of_mem_dictKeys {V : List (String × Nat)} {p : String}
    (h : p ∈ dictKeys V) : ∃ d, (p, d) ∈ V := by
  obtain ⟨⟨p', d⟩, he, hfst⟩ := List.mem_map.mp h
  cases hfst
  exact ⟨d, he⟩

theorem dictKeys_append {β : Type} (a b : List (String × β)) :
    dictKeys (a ++ b) = dictKeys a ++ dictKeys b := by
  simp [dictKeys]

theorem dictKeys_cons {β : Type} (e : String × β) (l : List (String × β)) :
    dictKeys (e :: l) = e.1 :: dictKeys l := rfl

/-- Effect of one neighbour pass: both the visited dict and the queue are
extended by the same fresh block at degree + 1. -/
theorem bfsStep_spec (degree : Nat) :
    ∀ (parents : List String) (V q : List (String × Nat)),
      ∃ new, (bfsStep V q parents degree).1 = V ++ new ∧
        (bfsStep V q parents degree).2 = q ++ new ∧
        (∀ e ∈ new, e.2 = degree + 1 ∧ e.1 ∈ parents) ∧
        (dictKeys new).Nodup ∧ (∀ k ∈ dictKeys new, k ∉ dictKeys V) ∧
        (∀ p ∈ parents, p ∈ dictKeys (V ++ new)) ∧
        (∀ k ∈ dictKeys (V ++ new), k ∈ dictKeys V ∨ k ∈ parents) := by
  intro parents
  induction parents with
  | nil =>
    intro V q
    refine ⟨[], by simp [bfsStep], by simp [bfsStep], by simp, by simp [dictKeys], by simp [dictKeys],
      by simp, by simp⟩
  | cons p ps ih =>
    intro V q
    by_cases hp : p ∈ dictKeys V
    · have hstep : bfsStep V q (p :: ps) degree = bfsStep V q ps degree := by
        unfold bfsStep
        rw [List.foldl_cons]
        simp [hp]
      obtain ⟨new, h1, h2, h3, h4, h5, h6, h7⟩ := ih V q
      rw [hstep]
      refine ⟨new, h1, h2, fun e he => ⟨(h3 e he).1, List.mem_cons_of_mem _ (h3 e he).2⟩,
        h4, h5, ?_, ?_⟩
      · intro p' hp'
        rcases List.mem_cons.mp hp' with h | h
        · subst h
          rw [dictKeys, List.map_append]
          exact List.mem_append_left _ hp
        · exact h6 p' h
      · intro k hk
        rcases h7 k hk with h | h
        · exact Or.inl h
        · exact Or.inr (List.mem_cons_of_mem _ h)
    · have hstep : bfsStep V q (p :: ps) degree
          = bfsStep (V ++ [(p, degree + 1)]) (q ++ [(p, degree + 1)]) ps degree := by
        unfold bfsStep
        rw [List.foldl_cons]
        simp [hp]
      obtain ⟨new, h1, h2, h3, h4, h5, h6, h7⟩ :=
        ih (V ++ [(p, degree + 1)]) (q ++ [(p, degree + 1)])
      rw [hstep]
      refine ⟨(p, degree + 1) :: new, ?_, ?_, ?_, ?_, ?_, ?_, ?_⟩
      · rw [h1, List.append_assoc, List.singleton_append]
      · rw [h2, List.append_assoc, List.singleton_append]
      · intro e he
        rcases List.mem_cons.mp he with h | h
        · subst h
          exact ⟨rfl, List.mem_cons_self _ _⟩
        · exact ⟨(h3 e h).1, List.mem_cons_of_mem _ (h3 e h).2⟩
      · rw [dictKeys, List.map_cons, List.nodup_cons]
        refine ⟨?_, h4⟩
        intro hmem
        have := h5 p hmem
        rw [dictKeys, List.map_append] at this
        exact this (List.mem_append_right _ (by simp [dictKeys]))
      · intro k hk
        rw [dictKeys_cons] at hk
        rcases List.mem_cons.mp hk with h | h
        · subst h
          exact hp
        · intro hkV
          exact h5 k h (by rw [dictKeys_append]; exact List.mem_append_left _ hkV)
      · intro p' hp'
        rw [dictKeys_append, dictKeys_cons]
        rcases List.mem_cons.mp hp' with h | h
        · subst h
          exact List.mem_append_right _ (List.mem_cons_self _ _)
        · have h' := h6 p' h
          rw [dictKeys_append, dictKeys_append] at h'
          rcases List.mem_append.mp h' with h'' | h''
          · rcases List.mem_append.mp h'' with h3' | h3'
            · exact List.mem_append_left _ h3'
            · refine List.mem_append_right _ (List.mem_cons.mpr (Or.inl ?_))
              simpa [dictKeys] using h3'
          · exact List.mem_append_right _ (List.mem_cons_of_mem _ h'')
      · intro k hk
        rw [dictKeys_append, dictKeys_cons] at hk
        rcases List.mem_append.mp hk with h | h
        · exact Or.inl h
        · rcases List.mem_cons.mp h with h' | h'
          · subst h'
            exact Or.inr (List.mem_cons_self _ _)
          · have hk' : k ∈ dictKeys ((V ++ [(p, degree + 1)]) ++ new) := by
              rw [dictKeys_append]
              exact List.mem_append_right _ h'
            rcases h7 k hk' with h'' | h''
            · rw [dictKeys_append] at h''
              rcases List.mem_append.mp h'' with h3' | h3'
              · exact Or.inl h3'
              · exact Or.inr (List.mem_cons.mpr (Or.inl (by simpa [dictKeys] using h3')))
            · exact Or.inr (List.mem_cons_of_mem _ h'')

theorem freshCount_append_le (U A ks : List String) (hnd : ks.Nodup)
    (hfresh : ∀ k ∈ ks, k ∉ A) (hU : ∀ k ∈ ks, k ∈ U) :
    freshCount U (A ++ ks) + ks.length ≤ freshCount U A := by
  induction ks generalizing A with
  | nil => simp
  | cons k ks ih =>
    have h1 : freshCount U (A ++ [k]) < freshCount U A :=
      freshCount_lt_of_fresh (hU k (List.mem_cons_self _ _))
        (hfresh k (List.mem_cons_self _ _))
    have h2 := ih (A ++ [k]) (List.nodup_cons.mp hnd).2
      (fun k' hk' => by
        intro hmem
        rcases List.mem_append.mp hmem with h | h
        · exact hfresh k' (List.mem_cons_of_mem _ hk') h
        · rw [List.mem_singleton] at h
          subst h
          exact (List.nodup_cons.mp hnd).1 hk')
      (fun k' hk' => hU k' (List.mem_cons_of_mem _ hk'))
    have heq : A ++ k :: ks = (A ++ [k]) ++ ks := by simp
    rw [heq, List.length_cons]
    omega

/-- Queue shape maintained between BFS iterations: a block at the current
frontier degree followed by a block one deeper, with every recorded degree at
most one above the frontier. -/
def QShape (V q : List (String × Nat)) : Prop :=
  q = [] ∨ ∃ D q1 q2, q = q1 ++ q2 ∧ (∀ e ∈ q1, e.2 = D) ∧
    (∀ e ∈ q2, e.2 = D + 1) ∧ ∀ e ∈ V, e.2 ≤ D + 1

/-- Master invariant lemma for the BFS loop in its steady state (every queue
entry already recorded). -/
theorem bfsGo_master (adj : String → List String) (U : List String) (n : String)
    (hadj : ∀ x p, p ∈ adj x → p ∈ U) :
    ∀ fuel V q,
      q.length + freshCount U (dictKeys V) < fuel →
      (dictKeys V).Nodup →
      (∀ e ∈ q, e ∈ V) →
      (∀ e ∈ V, 0 < e.2 ∧ ReachN adj e.2 n e.1) →
      QShape V q →
      List.Pairwise (fun a b : String × Nat => a.2 ≤ b.2) V →
      V <+: bfsGo adj fuel V q ∧
      (dictKeys (bfsGo adj fuel V q)).Nodup ∧
      (∀ e ∈ bfsGo adj fuel V q, 0 < e.2 ∧ ReachN adj e.2 n e.1) ∧
      List.Pairwise (fun a b : String × Nat => a.2 ≤ b.2) (bfsGo adj fuel V q) ∧
      (∀ e ∈ q, ∀ p ∈ adj e.1, ∃ d, d ≤ e.2 + 1 ∧ (p, d) ∈ bfsGo adj fuel V q) ∧
      (∀ e ∈ bfsGo adj fuel V q, e ∉ V →
        ∀ p ∈ adj e.1, ∃ d, d ≤ e.2 + 1 ∧ (p, d) ∈ bfsGo adj fuel V q) := by
  intro fuel
  induction fuel with
  | zero =>
    intro V q hM
    omega
  | succ f ih =>
    intro V q hM hVk hq hsound hshape hVsort
    cases q with
    | nil =>
      refine ⟨List.prefix_rfl, hVk, hsound, hVsort, by simp, ?_⟩
      intro e he hne
      exact absurd he hne
    | cons e₀ rest =>
      obtain ⟨x, dx⟩ := e₀
      obtain ⟨new, hV', hq', hnew, hnewnd, hnewfresh, hcover, hchar⟩ :=
        bfsStep_spec dx (adj x) V rest
      have hxV : (x, dx) ∈ V := hq _ (List.mem_cons_self _ _)
      have hsx := hsound _ hxV
      -- shape bookkeeping
      have hshape2 : (∀ e ∈ V, e.2 ≤ dx + 1) ∧ QShape (V ++ new) (rest ++ new) := by
        rcases hshape with hnil | ⟨D, q1, q2, hsplit, hq1, hq2, hVle⟩
        · exact absurd hnil (by simp)
        · cases q1 with
          | nil =>
            simp only [List.nil_append] at hsplit
            have hdx : dx = D + 1 := by
              have := hq2 (x, dx) (by rw [← hsplit]; exact List.mem_cons_self _ _)
              simpa using this
            have hrest : ∀ e ∈ rest, e.2 = D + 1 := by
              intro e he
              exact hq2 e (by rw [← hsplit]; exact List.mem_cons_of_mem _ he)
            refine ⟨fun e he => by have := hVle e he; omega,
              Or.inr ⟨dx, rest, new, rfl, ?_, ?_, ?_⟩⟩
            · intro e he
              rw [hrest e he, hdx]
            · intro e he
              exact (hnew e he).1
            · intro e he
              rcases List.mem_append.mp he with h | h
              · have := hVle e h
                omega
              · rw [(hnew e h).1]
          | cons c q1' =>
            rw [List.cons_append] at hsplit
            injection hsplit with hc hrest2
            have hdx : dx = D := by
              have := hq1 c (List.mem_cons_self _ _)
              rw [← hc] at this
              simpa using this
            refine ⟨fun e he => by have := hVle e he; omega,
              Or.inr ⟨D, q1', q2 ++ new, by rw [hrest2, List.append_assoc],
                fun e he => hq1 e (List.mem_cons_of_mem _ he), ?_, ?_⟩⟩
            · intro e he
              rcases List.mem_append.mp he with h | h
              · exact hq2 e h
              · rw [(hnew e h).1, hdx]
            · intro e he
              rcases List.mem_append.mp he with h | h
              · exact hVle e h
              · rw [(hnew e h).1, hdx]
      have hVle' := hshape2.1
      -- invariant re-establishment
      have hnewU : ∀ k ∈ dictKeys new, k ∈ U := by
        intro k hk
        obtain ⟨d, hd⟩ := mem_of_mem_dictKeys hk
        exact hadj x k (hnew _ hd).2
      have hM' : (rest ++ new).length + freshCount U (dictKeys (V ++ new)) < f := by
        have hfc := freshCount_append_le U (dictKeys V) (dictKeys new) hnewnd hnewfresh hnewU
        rw [dictKeys_append]
        have hlen : (dictKeys new).length = new.length := by
          simp [dictKeys]
        rw [List.length_append]
        simp only [List.length_cons] at hM
        omega
      have hVk' : (dictKeys (V ++ new)).Nodup := by
        rw [dictKeys_append, List.nodup_append]
        exact ⟨hVk, hnewnd, fun a ha hb => hnewfresh a hb ha⟩
      have hq'' : ∀ e ∈ rest ++ new, e ∈ V ++ new := by
        intro e he
        rcases List.mem_append.mp he with h | h
        · exact List.mem_append_left _ (hq e (List.mem_cons_of_mem _ h))
        · exact List.mem_append_right _ h
      have hsound' : ∀ e ∈ V ++ new, 0 < e.2 ∧ ReachN adj e.2 n e.1 := by
        intro e he
        rcases List.mem_append.mp he with h | h
        · exact hsound e h
        · obtain ⟨hdeg, hmem⟩ := hnew e h
          rw [hdeg]
          exact ⟨Nat.succ_pos _, (reachN_snoc adj dx n e.1).mpr ⟨x, hsx.2, hmem⟩⟩
      have hVsort' : List.Pairwise (fun a b : String × Nat => a.2 ≤ b.2) (V ++ new) := by
        rw [List.pairwise_append]
        refine ⟨hVsort, ?_, ?_⟩
        · apply List.pairwise_of_forall_mem_list
          intro a ha b hb
          rw [(hnew a ha).1, (hnew b hb).1]
        · intro a ha b hb
          rw [(hnew b hb).1]
          exact hVle' a ha
      obtain ⟨c1, c2, c3, c4, c5, c6⟩ :=
        ih (V ++ new) (rest ++ new) hM' hVk' hq'' hsound' hshape2.2 hVsort'
      have hunfold : bfsGo adj (f + 1) V ((x, dx) :: rest)
          = bfsGo adj f (V ++ new) (rest ++ new) := by
        show bfsGo adj f (bfsStep V rest (adj x) dx).1 (bfsStep V rest (adj x) dx).2 = _
        rw [hV', hq']
      rw [hunfold]
      refine ⟨(List.prefix_append V new).trans c1, c2, c3, c4, ?_, ?_⟩
      · intro e he p hp
        rcases List.mem_cons.mp he with h | h
        · subst h
          obtain ⟨d, hd⟩ := mem_of_mem_dictKeys (hcover p hp)
          refine ⟨d, ?_, c1.subset hd⟩
          rcases List.mem_append.mp hd with h' | h'
          · exact hVle' _ h'
          · exact le_of_eq (hnew _ h').1
        · exact c5 e (List.mem_append_left _ h) p hp
      · intro e he hne p hp
        by_cases hev : e ∈ V ++ new
        · rcases List.mem_append.mp hev with h | h
          · exact absurd h hne
          · exact c5 e (List.mem_append_right _ h) p hp
        · exact c6 e he hev p hp

/-- Full characterization of the BFS visited dict: unique keys, degrees
nondecreasing in discovery order, and each pair (x, d) present exactly when d
is the least positive walk length from the start to x. -/
theorem bfsVisited_spec (adj : String → List String) (U : List String) (n : String)
    (hadj : ∀ x p, p ∈ adj x → p ∈ U) :
    (dictKeys (bfsVisited adj (U.length + 2) n)).Nodup ∧
    List.Pairwise (fun a b : String × Nat => a.2 ≤ b.2)
      (bfsVisited adj (U.length + 2) n) ∧
    (∀ x d, (x, d) ∈ bfsVisited adj (U.length + 2) n ↔
      0 < d ∧ ReachN adj d n x ∧ ∀ k, 0 < k → ReachN adj k n x → d ≤ k) := by
  obtain ⟨new, hV', hq', hnew, hnewnd, hnewfresh, hcover, hchar⟩ :=
    bfsStep_spec 0 (adj n) [] []
  have hunfold : bfsVisited adj (U.length + 2) n = bfsGo adj (U.length + 1) new new := by
    show bfsGo adj (U.length + 1) (bfsStep [] [] (adj n) 0).1
        (bfsStep [] [] (adj n) 0).2 = _
    rw [hV', hq']
    simp only [List.nil_append]
  have hnewU : ∀ k ∈ dictKeys new, k ∈ U := by
    intro k hk
    obtain ⟨d, hd⟩ := mem_of_mem_dictKeys hk
    exact hadj n k (hnew _ hd).2
  have hM : new.length + freshCount U (dictKeys new) < U.length + 1 := by
    have hfc := freshCount_append_le U [] (dictKeys new) hnewnd (by simp) hnewU
    have hlen : (dictKeys new).length = new.length := by simp [dictKeys]
    rw [List.nil_append, freshCount_nil] at hfc
    omega
  have hsound : ∀ e ∈ new, 0 < e.2 ∧ ReachN adj e.2 n e.1 := by
    intro e he
    obtain ⟨hdeg, hmem⟩ := hnew e he
    rw [hdeg]
    exact ⟨Nat.one_pos, ⟨e.1, hmem, rfl⟩⟩
  have hshape : QShape new new :=
    Or.inr ⟨0, [], new, by simp, by simp, fun e he => (hnew e he).1,
      fun e he => le_of_eq (hnew e he).1⟩
  have hsort : List.Pairwise (fun a b : String × Nat => a.2 ≤ b.2) new := by
    apply List.pairwise_of_forall_mem_list
    intro a ha b hb
    rw [(hnew a ha).1, (hnew b hb).1]
  obtain ⟨c1, c2, c3, c4, c5, c6⟩ := bfsGo_master adj U n hadj (U.length + 1) new new
    hM hnewnd (fun e he => he) hsound hshape hsort
  rw [hunfold]
  have hcomp : ∀ k x, 0 < k → ReachN adj k n x →
      ∃ d, d ≤ k ∧ (x, d) ∈ bfsGo adj (U.length + 1) new new := by
    intro k
    induction k with
    | zero =>
      intro x h
      omega
    | succ k ihk =>
      intro x _ hr
      rcases (reachN_snoc adj k n x).mp hr with ⟨z, hz, hxz⟩
      rcases Nat.eq_zero_or_pos k with h0 | hkpos
      · subst h0
        rw [reachN_zero] at hz
        subst hz
        obtain ⟨d, hd⟩ := mem_of_mem_dictKeys (by simpa using hcover x hxz)
        exact ⟨d, le_of_eq (hnew _ hd).1, c1.subset hd⟩
      · obtain ⟨d', hd'le, hmem⟩ := ihk z hkpos hz
        by_cases hin : (z, d') ∈ new
        · obtain ⟨d, hdle, hdm⟩ := c5 (z, d') hin x hxz
          exact ⟨d, by omega, hdm⟩
        · obtain ⟨d, hdle, hdm⟩ := c6 (z, d') hmem hin x hxz
          exact ⟨d, by omega, hdm⟩
  refine ⟨c2, c4, ?_⟩
  intro x d
  constructor
  · intro hmem
    have hs := c3 (x, d) hmem
    refine ⟨hs.1, hs.2, ?_⟩
    intro k hk hr
    obtain ⟨d', hd'le, hd'mem⟩ := hcomp k x hk hr
    have heq : d' = d := nodup_keys_eq c2 hd'mem hmem
    omega
  · rintro ⟨hd, hr, hmin⟩
    obtain ⟨d', hd'le, hd'mem⟩ := hcomp d x hd hr
    have hs := c3 (x, d') hd'mem
    have hge : d ≤ d' := hmin d' hs.1 hs.2
    have heq : d' = d := by omega
    subst heq
    exact hd'mem

/-- Packaged BFS-with-degree contract, including the stable sort acting as
the identity on the already degree-sorted discovery list. -/
theorem bfs_degree_spec (adj : String → List String) (U : List String) (n : String)
    (hadj : ∀ x p, p ∈ adj x → p ∈ U) :
    (dictKeys (bfsVisited adj (U.length + 2) n)).Nodup ∧
    List.Pairwise (fun a b : String × Nat => a.2 ≤ b.2)
      (bfsVisited adj (U.length + 2) n) ∧
    sortByDegree (bfsVisited adj (U.length + 2) n)
      = bfsVisited adj (U.length + 2) n ∧
    (∀ x d, (x, d) ∈ bfsVisited adj (U.length + 2) n ↔
      0 < d ∧ ReachN adj d n x ∧ ∀ k, 0 < k → ReachN adj k n x → d ≤ k) := by
  obtain ⟨h1, h2, h3⟩ := bfsVisited_spec adj U n hadj
  exact ⟨h1, h2, sortByDegree_eq_self _ h2, h3⟩

/- ==================================================================
   Claim theorems.
   ================================================================== -/

/-- C1 counterexample: on the graph {A: [], B: [A], C: [A], D: [B, C]} the
code's pre-order DFS yields getAncestors(D) = [B, A, C] (B's own ancestor A
before the sibling branch C), not [B, C, A] as the claim states. -/
theorem claim1_counterexample :
    get_ancestors [("A", []), ("B", ["A"]), ("C", ["A"]), ("D", ["B", "C"])] "D"
        = ["B", "A", "C"] ∧
    get_ancestors [("A", []), ("B", ["A"]), ("C", ["A"]), ("D", ["B", "C"])] "D"
        ≠ ["B", "C", "A"] := by
  exact ⟨by decide, by decide⟩

/-- C1 (amended): on the graph {A: [], B: [A], C: [A], D: [B, C]},
getAncestors(D) returns exactly the list [B, A, C]. -/
theorem claim1_amended :
    get_ancestors [("A", []), ("B", ["A"]), ("C", ["A"]), ("D", ["B", "C"])] "D"
      = ["B", "A", "C"] := by decide

/-- C2 counterexample: the edge map {B: [A]} (A an external parent, not a key)
contains no directed cycle, yet topological_sort fails with the cycle error. -/
theorem claim2_counterexample :
    (∀ n k, 0 < k → ¬ ReachN (get_parents [("B", ["A"])]) k n n) ∧
    topological_sort [("B", ["A"])] = Except.error cycleMsg := by
  refine ⟨?_, rfl⟩
  apply acyclic_of_rank _ (fun x => if x = "B" then 1 else 0)
  intro x p hp
  by_cases hxB : x = "B"
  · subst hxB
    have hps : get_parents [("B", ["A"])] "B" = ["A"] := rfl
    rw [hps] at hp
    have hpA : p = "A" := by simpa using hp
    subst hpA
    simp
  · rw [get_parents_eq_nil_of_not_key (by simp [dictKeys, hxB])] at hp
    exact absurd hp (List.not_mem_nil p)

/-- C2 (amended): restricted to edge maps with unique keys whose parent lists
reference only keys: if the graph has no cycle, topological_sort returns a
permutation of the node set in which every parent precedes every child; if it
has a cycle it fails with the CycleError; and the error is raised exactly when
the Kahn result is shorter than the node count. -/
theorem claim2_amended (em : EdgeMap) (hnd : (dictKeys em).Nodup)
    (hclosed : ClosedEM em) :
    (Acyclic em →
      ∃ R, topological_sort em = Except.ok R ∧ R.Perm (dictKeys em) ∧
        ∀ r1 c r2, R = r1 ++ c :: r2 → ∀ p ∈ get_parents em c, p ∈ r1) ∧
    ((∃ n k, 0 < k ∧ ReachN (get_parents em) k n n) →
      topological_sort em = Except.error cycleMsg) ∧
    ((∃ msg, topological_sort em = Except.error msg) ↔
      (kahnRun em).length < em.length) := by
  refine ⟨?_, ?_, topological_sort_error_iff em hnd⟩
  · intro hacyc
    obtain ⟨hok, hperm⟩ := topological_sort_acyclic em hnd hclosed hacyc
    exact ⟨kahnRun em, hok, hperm, (kahnRun_final em hnd).ordered⟩
  · rintro ⟨n, k, hk, hcyc⟩
    exact topological_sort_cycle em hnd hk hcyc

/-- C2 witness: the amended theorem applied to the concrete closed acyclic
graph {A: [], B: [A]}. -/
theorem claim2_amended_witness :
    ∃ R, topological_sort [("A", []), ("B", ["A"])] = Except.ok R ∧
      R.Perm (dictKeys [("A", []), ("B", ["A"])]) ∧
      ∀ r1 c r2, R = r1 ++ c :: r2 →
        ∀ p ∈ get_parents [("A", []), ("B", ["A"])] c, p ∈ r1 :=
  (claim2_amended [("A", []), ("B", ["A"])] (by decide)
    (by unfold ClosedEM; decide)).1 twoChainAcyclic

/-- C3 counterexample: on the cyclic edge map {A: [B], B: [A]} the node A is
listed among its own ancestors and among its own descendants. -/
theorem claim3_counterexample :
    "A" ∈ get_ancestors [("A", ["B"]), ("B", ["A"])] "A" ∧
    "A" ∈ get_descendants [("A", ["B"]), ("B", ["A"])] "A" := by
  exact ⟨by decide, by decide⟩

/-- C3 (amended): for edge maps with unique keys, a node that does not lie on
a directed cycle (in particular every node of an acyclic edge map) is not a
member of its own ancestor or descendant list. -/
theorem claim3_amended (em : EdgeMap) (n : String) (hnd : (dictKeys em).Nodup)
    (hnc : ∀ k, 0 < k → ¬ ReachN (get_parents em) k n n) :
    n ∉ get_ancestors em n ∧ n ∉ get_descendants em n := by
  constructor
  · intro hmem
    obtain ⟨k, hk, hr⟩ := (mem_get_ancestors_iff em n n).mp hmem
    exact hnc k hk hr
  · intro hmem
    obtain ⟨k, hk, hr⟩ := (mem_get_descendants_iff em n n).mp hmem
    exact hnc k hk ((reachN_children_iff_parents hnd k n n).mp hr)

/-- C3 witness: the amended theorem at the concrete acyclic graph {A: []}. -/
theorem claim3_amended_witness :
    "A" ∉ get_ancestors [("A", [])] "A" ∧ "A" ∉ get_descendants [("A", [])] "A" := by
  have hnc : ∀ k, 0 < k → ¬ ReachN (get_parents [("A", [])]) k "A" "A" := by
    intro k hk hr
    obtain ⟨k', rfl⟩ : ∃ k', k = k' + 1 := ⟨k - 1, by omega⟩
    obtain ⟨p, hp, -⟩ := hr
    have hps : get_parents [("A", [])] "A" = [] := rfl
    rw [hps] at hp
    exact absurd hp (List.not_mem_nil p)
  exact claim3_amended [("A", [])] "A" (by decide) hnc

/-- C4 counterexample: on the edge map {B: [X]} (X external), adding the edge
A → B keeps the graph acyclic-free of the claimed equivalence:
wouldCreateCycle(A, B) is false, yet topological_sort of the extended map
fails. -/
theorem claim4_counterexample :
    would_create_cycle [("B", ["X"])] "A" "B" = false ∧
    topological_sort (add_edge [("B", ["X"])] "A" "B") = Except.error cycleMsg := by
  exact ⟨by decide, rfl⟩

/-- C4 (amended): over unique-key edge maps whose parent lists reference only
keys and which contain no cycle, and for keys source and target:
wouldCreateCycle(source, target) is true exactly when appending source to
target's parent list makes topological_sort fail. -/
theorem claim4_amended (em : EdgeMap) (s t : String) (hnd : (dictKeys em).Nodup)
    (hclosed : ClosedEM em) (hacyc : Acyclic em)
    (hs : s ∈ dictKeys em) (ht : t ∈ dictKeys em) :
    would_create_cycle em s t = true ↔
      ∃ msg, topological_sort (add_edge em s t) = Except.error msg := by
  rw [would_create_cycle_iff]
  constructor
  · rintro ⟨k, hk⟩
    have hreach : ∃ m, ReachN (get_parents em) m s t :=
      ⟨k, (reachN_children_iff_parents hnd k t s).mp hk⟩
    obtain ⟨n, k', hk', hcyc⟩ := (add_edge_cycle_iff em hacyc s t ht).mpr hreach
    have hnd' : (dictKeys (add_edge em s t)).Nodup := by
      rw [add_edge_keys]
      exact hnd
    exact ⟨cycleMsg, topological_sort_cycle (add_edge em s t) hnd' hk' hcyc⟩
  · rintro ⟨msg, hmsg⟩
    by_contra hno
    have hnd' : (dictKeys (add_edge em s t)).Nodup := by
      rw [add_edge_keys]
      exact hnd
    have hclosed' : ClosedEM (add_edge em s t) := add_edge_closed hclosed hs
    have hacyc' : Acyclic (add_edge em s t) := by
      intro n k hk hcyc
      obtain ⟨m, hm⟩ := (add_edge_cycle_iff em hacyc s t ht).mp ⟨n, k, hk, hcyc⟩
      exact hno ⟨m, (reachN_children_iff_parents hnd m t s).mpr hm⟩
    obtain ⟨hok, -⟩ := topological_sort_acyclic _ hnd' hclosed' hacyc'
    rw [hok] at hmsg
    cases hmsg

/-- C4 witness: the amended equivalence at the concrete graph {A: [], B: [A]}
with source B and target A (both sides true: adding B → A closes a cycle). -/
theorem claim4_amended_witness :
    would_create_cycle [("A", []), ("B", ["A"])] "B" "A" = true ↔
      ∃ msg, topological_sort (add_edge [("A", []), ("B", ["A"])] "B" "A")
        = Except.error msg :=
  claim4_amended [("A", []), ("B", ["A"])] "B" "A" (by decide)
    (by unfold ClosedEM; decide) twoChainAcyclic (by decide) (by decide)

/-- C5: getAncestors lists exactly the nodes reachable through one or more
parent edges, each exactly once, in the order of the spec's pre-order
first-visit DFS over direct parents; getDescendants satisfies the symmetric
contract over the children index. -/
theorem claim5_dfs_contract (em : EdgeMap) (n : String) :
    (get_ancestors em n).Nodup ∧
    get_ancestors em n = preorderFirstVisit (get_parents em) (dfsFuel em) n [] ∧
    (∀ x, x ∈ get_ancestors em n ↔ ∃ k, 0 < k ∧ ReachN (get_parents em) k n x) ∧
    (get_descendants em n).Nodup ∧
    get_descendants em n = preorderFirstVisit (get_children em) (em.length + 1) n [] ∧
    (∀ x, x ∈ get_descendants em n ↔ ∃ k, 0 < k ∧ ReachN (get_children em) k n x) :=
  ⟨get_ancestors_nodup em n, dfsGo_eq_preorderFirstVisit _ _ _ _,
    fun x => mem_get_ancestors_iff em n x, get_descendants_nodup em n,
    dfsGo_eq_preorderFirstVisit _ _ _ _, fun x => mem_get_descendants_iff em n x⟩

/-- C6: quick_validate succeeds returning True exactly when every edge's
endpoints are node ids, no edge is a self-loop, and no (source, target) pair
repeats; when a violation exists the scan fails on the first violating edge in
input order with that edge's specific reason; in particular nodes [P, Q] with
the single edge (P, P) fail with SelfLoop(P). -/
theorem claim6_quick_validate :
    (∀ (nodeIds : List String) (es : List (String × String)),
      quick_validate nodeIds es = Except.ok true ↔
        (∀ e ∈ es, e.1 ∈ nodeIds ∧ e.2 ∈ nodeIds ∧ e.1 ≠ e.2) ∧ es.Nodup) ∧
    (∀ (nodeIds : List String) (pre post : List (String × String))
        (e : String × String) (err : ValidationError),
      quick_validate nodeIds pre = Except.ok true →
      edgeViolation nodeIds pre e = some err →
      quick_validate nodeIds (pre ++ e :: post) = Except.error err) ∧
    quick_validate ["P", "Q"] [("P", "P")]
      = Except.error (ValidationError.selfLoop "P") := by
  refine ⟨?_, ?_, rfl⟩
  · intro nodeIds es
    rw [quick_validate, quickGo_ok_iff]
    constructor
    · rintro ⟨h1, h2, -⟩
      exact ⟨h1, h2⟩
    · rintro ⟨h1, h2⟩
      exact ⟨h1, h2, fun e _ h => absurd h (List.not_mem_nil e)⟩
  · intro nodeIds pre post e err hpre hviol
    unfold quick_validate at hpre ⊢
    rw [quickGo_append nodeIds pre (e :: post) [] hpre]
    simp only [List.nil_append, quickGo, hviol]

/-- C6 witness: the fail-fast part of the claim applied at the concrete
SelfLoop example. -/
theorem claim6_quick_validate_witness :
    quick_validate ["P", "Q"] ([] ++ ("P", "P") :: [])
      = Except.error (ValidationError.selfLoop "P") :=
  claim6_quick_validate.2.1 ["P", "Q"] [] [] ("P", "P")
    (ValidationError.selfLoop "P") rfl rfl

/-- C7: the comparison report's validity flag is true exactly when all four
difference sets are empty — equivalently when the node and edge sets agree —
while the count-match flags report the count comparisons separately; on
A = ({1,2}, {(1,2)}) versus B = ({1,2,3}, {(1,2)}) validity fails with
nodes-missing-in-A = {3}, and equal counts with different members still fail
validity. -/
theorem claim7_compare_topologies :
    (∀ (α : Type) (inst : DecidableEq α) (na nb : Finset α)
        (ea eb : Finset (α × α)),
      ((compare_topologies na ea nb eb).is_valid = true ↔
        nb \ na = ∅ ∧ na \ nb = ∅ ∧ eb \ ea = ∅ ∧ ea \ eb = ∅) ∧
      ((compare_topologies na ea nb eb).is_valid = true ↔ na = nb ∧ ea = eb) ∧
      (compare_topologies na ea nb eb).node_count_match
        = decide (na.card = nb.card) ∧
      (compare_topologies na ea nb eb).edge_count_match
        = decide (ea.card = eb.card) ∧
      (compare_topologies na ea nb eb).missing_nodes_in_a = nb \ na) ∧
    ((compare_topologies ({1, 2} : Finset ℕ) {(1, 2)} {1, 2, 3} {(1, 2)}).is_valid
        = false ∧
      (compare_topologies ({1, 2} : Finset ℕ) {(1, 2)} {1, 2, 3}
        {(1, 2)}).missing_nodes_in_a = {3} ∧
      (compare_topologies ({1, 2} : Finset ℕ) ∅ {1, 3} ∅).is_valid = false ∧
      (compare_topologies ({1, 2} : Finset ℕ) ∅ {1, 3} ∅).node_count_match = true ∧
      (compare_topologies ({1, 2} : Finset ℕ) ∅ {1, 3} ∅).edge_count_match = true) := by
  constructor
  · intro α inst na nb ea eb
    refine ⟨?_, compare_topologies_is_valid_iff na nb ea eb, rfl, rfl, rfl⟩
    unfold compare_topologies
    simp only [decide_eq_true_eq, Finset.card_eq_zero]
  · exact ⟨by decide, by decide, by decide, by decide, by decide⟩

/-- C7 witness: the general component applied at a concrete instance. -/
theorem claim7_compare_topologies_witness :
    (compare_topologies ({1, 2} : Finset ℕ) {(1, 2)} {1, 2} {(1, 2)}).is_valid = true
      ↔ (({1, 2} : Finset ℕ) = {1, 2} ∧ ({(1, 2)} : Finset (ℕ × ℕ)) = {(1, 2)}) :=
  (claim7_compare_topologies.1 ℕ inferInstance {1, 2} {1, 2} {(1, 2)} {(1, 2)}).2.1

/-- C8: get_ancestors_with_degree and get_descendants_with_degree each return
exactly the BFS discovery list (so ties are in BFS discovery order and the
stable sort leaves it unchanged), with no node recorded twice, degrees
nondecreasing along the list, and each pair (x, d) present exactly when d is
the minimum positive edge-distance from n to x along the relevant adjacency. -/
theorem claim8_with_degree (em : EdgeMap) (n : String) :
    (get_ancestors_with_degree em n
        = bfsVisited (get_parents em) ((em.flatMap Prod.snd).length + 2) n) ∧
    (dictKeys (get_ancestors_with_degree em n)).Nodup ∧
    List.Pairwise (fun a b : String × Nat => a.2 ≤ b.2)
      (get_ancestors_with_degree em n) ∧
    (∀ x d, (x, d) ∈ get_ancestors_with_degree em n ↔
      0 < d ∧ ReachN (get_parents em) d n x ∧
        ∀ k, 0 < k → ReachN (get_parents em) k n x → d ≤ k) ∧
    (get_descendants_with_degree em n
        = bfsVisited (get_children em) (em.length + 2) n) ∧
    (dictKeys (get_descendants_with_degree em n)).Nodup ∧
    List.Pairwise (fun a b : String × Nat => a.2 ≤ b.2)
      (get_descendants_with_degree em n) ∧
    (∀ x d, (x, d) ∈ get_descendants_with_degree em n ↔
      0 < d ∧ ReachN (get_children em) d n x ∧
        ∀ k, 0 < k → ReachN (get_children em) k n x → d ≤ k) := by
  obtain ⟨a1, a2, a3, a4⟩ := bfs_degree_spec (get_parents em) (em.flatMap Prod.snd) n
    (fun _ _ hp => get_parents_mem_flatMap hp)
  have hd := bfs_degree_spec (get_children em) (dictKeys em) n
    (fun _ _ hp => mem_get_children_mem_keys hp)
  have hlen : (dictKeys em).length = em.length := by
    simp [dictKeys]
  rw [hlen] at hd
  obtain ⟨b1, b2, b3, b4⟩ := hd
  have heqa : get_ancestors_with_degree em n
      = bfsVisited (get_parents em) ((em.flatMap Prod.snd).length + 2) n := by
    unfold get_ancestors_with_degree
    exact a3
  have heqb : get_descendants_with_degree em n
      = bfsVisited (get_children em) (em.length + 2) n := by
    unfold get_descendants_with_degree
    exact b3
  refine ⟨heqa, ?_, ?_, ?_, heqb, ?_, ?_, ?_⟩
  · rw [heqa]
    exact a1
  · rw [heqa]
    exact a2
  · intro x d
    rw [heqa]
    exact a4 x d
  · rw [heqb]
    exact b1
  · rw [heqb]
    exact b2
  · intro x d
    rw [heqb]
    exact b4 x d

/-- C9: unknown-node queries degrade gracefully: for any identifier that is
not a key, get_parents returns the empty list (and, both functions being
total, neither query can raise); get_children of an identifier that is
neither a key nor mentioned in any parent list is likewise empty. -/
theorem claim9_unknown_nodes (em : EdgeMap) (n : String) :
    (n ∉ dictKeys em → get_parents em n = []) ∧
    (n ∉ dictKeys em → (∀ e ∈ em, n ∉ e.2) → get_children em n = []) := by
  constructor
  · intro hn
    exact get_parents_eq_nil_of_not_key hn
  · intro _ hn2
    unfold get_children
    rw [build_children_map_lookup]
    apply flatMap_nil_of_components
    intro e he
    rw [List.count_eq_zero.mpr (hn2 e he)]
    rfl

/-- C9 witness: the graceful-degradation theorem at a concrete edge map and
unknown node. -/
theorem claim9_unknown_nodes_witness :
    get_parents [("A", ["B"])] "Z" = [] ∧ get_children [("A", ["B"])] "Z" = [] := by
  have h := claim9_unknown_nodes [("A", ["B"])] "Z"
  exact ⟨h.1 (by decide), h.2 (by decide) (by decide)⟩

/-- C10: get_roots returns exactly the keys whose parent list is empty, as a
key-order sublist of the key list; an identifier that is not a key (such as
one appearing only inside parent lists) is never returned. -/
theorem claim10_get_roots (em : EdgeMap) :
    (∀ x, x ∈ get_roots em ↔ (x, ([] : List String)) ∈ em) ∧
    List.Sublist (get_roots em) (dictKeys em) ∧
    (∀ x, x ∉ dictKeys em → x ∉ get_roots em) := by
  have hsub : List.Sublist (get_roots em) (dictKeys em) := by
    unfold get_roots dictKeys
    exact (em.filter_sublist).map Prod.fst
  refine ⟨?_, hsub, fun x hx hmem => hx (hsub.subset hmem)⟩
  intro x
  unfold get_roots
  simp only [List.mem_map, List.mem_filter]
  constructor
  · rintro ⟨e, ⟨hmem, hem⟩, hfst⟩
    obtain ⟨k, ps⟩ := e
    cases hfst
    have hps : ps = [] := by simpa using hem
    subst hps
    exact hmem
  · intro hmem
    exact ⟨(x, []), ⟨hmem, by simp⟩, rfl⟩

/-- C10 witness: the characterization at a concrete edge map with an external
parent X. -/
theorem claim10_get_roots_witness :
    ("A" ∈ get_roots [("A", []), ("B", ["A", "X"])] ↔
      ("A", ([] : List String)) ∈ ([("A", []), ("B", ["A", "X"])] : EdgeMap)) ∧
    "X" ∉ get_roots [("A", []), ("B", ["A", "X"])] := by
  have h := claim10_get_roots [("A", []), ("B", ["A", "X"])]
  exact ⟨h.1 "A", h.2.2 "X" (by decide)⟩

end TheoryEngine
